import Mathlib

/-!
gopkgapi: the exported-API printer of `api.go`

A shallow embedding of `src/api.go` and theorems about it.

Modelling conventions.

* A Go `string` is a Lean `String`.  The strings this program handles are identifiers, package
  paths and renderings of types, all valid UTF-8; on valid UTF-8 the byte-wise
  comparison and the byte-wise substring search of Go agree with the comparison and the
  search over code points used here (with byte offsets replaced by character offsets).
* A panic is the result `none`.
* The `go/types` values are modelled by the data they expose to `api.go`:
  `Exported()` is a stored flag, `Parent()` an optional scope identifier,
  `Underlying()` of a named type a lookup `und` from the type name to its underlying type
  (named types may be recursive, so the underlying type is not stored in the tree),
  and `String()` of a struct or interface type a function `typeString` supplied by the
  type library.
* `info.Defs` is a Go map; it is modelled by the list of its values in the order in
  which the `range` loop happens to visit them.
-/

namespace Gopkgapi

/-! # Definitions -/

/-! ## Strings: comparison, sorting, searching -/

/-- Go's `a < b` on strings, element by element (lexicographic, a proper prefix is smaller). -/
def lessChars : List Char → List Char → Bool
  | _, [] => false
  | [], _ :: _ => true
  | a :: as, b :: bs =>
    if a.toNat < b.toNat then true
    else if b.toNat < a.toNat then false
    else lessChars as bs

/-- Go's `a < b` on strings. -/
def strLess (a b : String) : Bool := lessChars a.data b.data

/-- Go's `a <= b` on strings, that is `!(b < a)`. -/
def strLE (a b : String) : Prop := strLess b a = false

instance strLE.decidable : DecidableRel strLE := fun a b =>
  inferInstanceAs (Decidable (strLess b a = false))

/-- The library routine `sort.Strings`: sorts into increasing order. The order is total and
antisymmetric, so the result is the unique sorted rearrangement whatever algorithm is used
(see `sortStrings_unique`). -/
def sortStrings (l : List String) : List String := l.insertionSort strLE

/-- The library routine `strings.Join`. -/
def join (l : List String) (sep : String) : String := sep.intercalate l

/-- Scan of the candidate start positions `i, i-1, ..., 0` for `substr`, highest first. -/
def lastIndexFrom (s substr : List Char) : Nat → Int
  | 0 => if substr.isPrefixOf s then 0 else -1
  | i + 1 => if substr.isPrefixOf (s.drop (i + 1)) then ((i + 1 : Nat) : Int)
             else lastIndexFrom s substr i

/-- The library routine `strings.LastIndex`: the index of the last instance of `substr` in `s`,
or `-1` if `substr` is not present in `s`. -/
def lastIndex (s substr : String) : Int :=
  lastIndexFrom s.data substr.data (s.length - substr.length)

/-- The slice expression `p[i:]`. -/
def sliceFrom (p : String) (i : Int) : String := ⟨p.data.drop i.toNat⟩

/-! ## The values of `go/types` read by the program -/

/-- A `types.ChanDir`: the three directions `go/types` produces. -/
inductive ChanDir where
  | SendRecv
  | SendOnly
  | RecvOnly
deriving DecidableEq, Repr

/-- A `*types.Package`: its import path and the identity of its scope. -/
structure Package where
  path : String
  scope : Nat
deriving DecidableEq, Repr

/-- The `*types.TypeName` behind a named type: `Pkg()` (nil for universe types such as
`error`), `Name()` and `Exported()`. -/
structure TypeName where
  pkg : Option Package
  name : String
  exported : Bool
deriving DecidableEq, Repr

mutual
/-- A `types.Type`. `Tuple` stands for the shapes `formatType` has no case for. -/
inductive GoType where
  | Basic (name : String)
  | Struct (fields : List Var)
  | Named (obj : TypeName)
  | Pointer (elem : GoType)
  | Slice (elem : GoType)
  | Array (len : Int) (elem : GoType)
  | Signature (sig : Signature)
  | Interface (methods : List Func)
  | Map (key : GoType) (elem : GoType)
  | Chan (dir : ChanDir) (elem : GoType)
  | Tuple (vars : List Var)
/-- A `*types.Signature`: `Recv()`, `Params()`, `Results()` (a tuple pointer may be nil)
and `Variadic()`. -/
inductive Signature where
  | mk (recv : Option Var) (params : Option (List Var)) (results : Option (List Var))
      (variadic : Bool)
/-- A `*types.Var` as a parameter, result, receiver or struct field. -/
inductive Var where
  | mk (name : String) (exported : Bool) (typ : GoType)
/-- A `*types.Func` as an interface method; its type is always a signature. -/
inductive Func where
  | mk (name : String) (exported : Bool) (sig : Signature)
end

/-- The method `Name()` of a variable. -/
def Var.name : Var → String
  | .mk n _ _ => n

/-- The method `Exported()` of a variable. -/
def Var.exported : Var → Bool
  | .mk _ e _ => e

/-- The method `Type()` of a variable. -/
def Var.typ : Var → GoType
  | .mk _ _ t => t

/-- The method `Name()` of a function object. -/
def Func.name : Func → String
  | .mk n _ _ => n

/-- The method `Exported()` of a function object. -/
def Func.exported : Func → Bool
  | .mk _ e _ => e

/-- The signature of a function object. -/
def Func.sig : Func → Signature
  | .mk _ _ s => s

/-- The method `Recv()` of a signature. -/
def Signature.recv : Signature → Option Var
  | .mk r _ _ _ => r

/-- The method `Params()` of a signature. -/
def Signature.params : Signature → Option (List Var)
  | .mk _ p _ _ => p

/-- The method `Results()` of a signature. -/
def Signature.results : Signature → Option (List Var)
  | .mk _ _ r _ => r

/-- The method `Variadic()` of a signature. -/
def Signature.variadic : Signature → Bool
  | .mk _ _ _ v => v

/-- The method `Underlying()`: the underlying type of a named type is looked up, every other
type is its own underlying type. -/
def GoType.Underlying (und : TypeName → GoType) : GoType → GoType
  | .Named obj => und obj
  | t => t

/-- A `constant.Kind`. -/
inductive Kind where
  | Unknown
  | Bool
  | String
  | Int
  | Float
  | Complex
deriving DecidableEq, Repr

/-- The dynamic type of a `types.Object` together with the data read from it. -/
inductive ObjKind where
  | Const (typ : GoType) (val : Kind)
  | Var (isField : Bool) (typ : GoType)
  | TypeName (typ : GoType)
  | Func (sig : Signature)
  | Label
  | PkgName
  | Builtin
  | Nil

/-- A `types.Object`: `Name()`, `Exported()`, `Parent()` (nil for methods and struct fields)
and its dynamic type. -/
structure Object where
  name : String
  exported : Bool
  parent : Option Nat
  kind : ObjKind

/-- A `*types.Info`, of which only `Defs` is read. -/
structure Info where
  Defs : List (Option Object)

/-! ## `api.go` -/

/-- The table `constStr`; a missing key yields the empty string. -/
def constStr : Kind → String
  | .Bool => "bool"
  | .String => "string"
  | .Int => "int"
  | .Float => "float"
  | .Complex => "complex"
  | .Unknown => ""

/-- The constant `vendor` of `packagePath`. -/
def vendor : String := "/vendor/"

/-- The function `packagePath`: the full, non-vendored package path of the package. -/
def packagePath (pkg : Package) : String :=
  let p := pkg.path
  let i := lastIndex p vendor
  if i < 0 then p
  else sliceFrom p (i + vendor.length)

/-- The struct `printer`. -/
structure printer where
  lines : List String
  pkgPath : String
deriving DecidableEq, Repr

/-- The method `printf`, applied to the formatted text. -/
def printer.printf (p : printer) (s : String) : printer :=
  { p with lines := p.lines ++ [s] }

/-- The function `ignoreRecv`. -/
def ignoreRecv (und : TypeName → GoType) : GoType → Bool
  | .Named obj =>
    match und obj with
    | .Interface _ => true
    | _ => !obj.exported
  | .Pointer elem => ignoreRecv und elem
  | _ => false

mutual
/-- The method `formatType`. `String()` of a basic type is its name; `String()` of a struct or
interface type is `typeString`. -/
def printer.formatType (typeString : GoType → String) (p : printer) : GoType → Option String
  | .Basic name => some name
  | .Struct fields => some (typeString (.Struct fields))
  | .Named typeName =>
    match typeName.pkg with
    | none => some typeName.name
    | some pkg =>
      if packagePath pkg = p.pkgPath then some typeName.name
      else some (packagePath pkg ++ "." ++ typeName.name)
  | .Pointer elem => (printer.formatType typeString p elem).map fun s => "*" ++ s
  | .Slice elem => (printer.formatType typeString p elem).map fun s => "[]" ++ s
  | .Array len elem =>
    (printer.formatType typeString p elem).map fun s => "[" ++ toString len ++ "]" ++ s
  | .Signature sig => (printer.formatSignature typeString p sig).map fun s => "func" ++ s
  | .Interface methods => some (typeString (.Interface methods))
  | .Map key elem =>
    (printer.formatType typeString p key).bind fun k =>
      (printer.formatType typeString p elem).map fun e => "map[" ++ k ++ "]" ++ e
  | .Chan .SendRecv elem => (printer.formatType typeString p elem).map fun s => "chan " ++ s
  | .Chan .SendOnly elem => (printer.formatType typeString p elem).map fun s => "chan <- " ++ s
  | .Chan .RecvOnly elem => (printer.formatType typeString p elem).map fun s => "<- chan " ++ s
  | .Tuple _ => none
/-- The method `formatSignature`: `"("`, the parameters, `")"`, then the results. -/
def printer.formatSignature (typeString : GoType → String) (p : printer) :
    Signature → Option String
  | .mk _ params results variadic =>
    (match params with
      | none => some ""
      | some vars => printer.formatParams typeString p variadic true vars).bind fun a =>
    (match results with
      | none => some ""
      | some [] => some ""
      | some [.mk _ _ t] => (printer.formatType typeString p t).map fun s => " " ++ s
      | some (v :: w :: vars) =>
        (printer.formatResults typeString p true (v :: w :: vars)).map fun s =>
          " (" ++ s ++ ")").map fun b =>
    "(" ++ a ++ ")" ++ b
/-- The parameter loop of `formatSignature`, from the index of the head of the list on;
`first` tells whether that index is `0`. The last parameter of a variadic signature is
asserted to be a slice. -/
def printer.formatParams (typeString : GoType → String) (p : printer) (variadic : Bool) :
    Bool → List Var → Option String
  | _, [] => some ""
  | first, (.mk _ _ t) :: rest =>
    (match variadic && rest.isEmpty, t with
      | true, .Slice elem => (printer.formatType typeString p elem).map fun s => "..." ++ s
      | true, _ => none
      | false, t => printer.formatType typeString p t).bind fun a =>
    (printer.formatParams typeString p variadic false rest).map fun b =>
    (if first then "" else ", ") ++ a ++ b
/-- The result loop of `formatSignature`, from the index of the head of the list on. -/
def printer.formatResults (typeString : GoType → String) (p : printer) :
    Bool → List Var → Option String
  | _, [] => some ""
  | first, (.mk _ _ t) :: rest =>
    (printer.formatType typeString p t).bind fun a =>
    (printer.formatResults typeString p false rest).map fun b =>
    (if first then "" else ", ") ++ a ++ b
end

/-- The field loop of the struct case of `formatObj`, from the field at the head of the list
on. -/
def printer.structFields (typeString : GoType → String) (name : String) :
    printer → List Var → Option printer
  | p, [] => some p
  | p, f :: rest =>
    if !f.exported then printer.structFields typeString name p rest
    else
      match p.formatType typeString f.typ with
      | none => none
      | some t =>
        printer.structFields typeString name
          (p.printf ("type " ++ name ++ " struct, " ++ f.name ++ " " ++ t)) rest

/-- The method loop of the interface case of `formatObj`, from the method at the head of the
list on; the state is the printer and the slice `methodNames`. -/
def printer.interfaceMethods (typeString : GoType → String) (name : String) :
    printer → List String → List Func → Option (printer × List String)
  | p, methodNames, [] => some (p, methodNames)
  | p, methodNames, f :: rest =>
    if !f.exported then printer.interfaceMethods typeString name p methodNames rest
    else
      match p.formatSignature typeString f.sig with
      | none => none
      | some s =>
        printer.interfaceMethods typeString name
          (p.printf ("type " ++ name ++ " interface, " ++ f.name ++ s))
          (methodNames ++ [f.name]) rest

/-- The method `formatObj`: adds to the printer the lines for the given object. -/
def printer.formatObj (typeString : GoType → String) (und : TypeName → GoType)
    (p : printer) (o : Object) : Option printer :=
  match o.kind with
  | .Const _ val => some (p.printf ("const " ++ o.name ++ " " ++ constStr val))
  | .Var isField typ =>
    if isField then some p
    else
      (p.formatType typeString (typ.Underlying und)).map fun t =>
        p.printf ("var " ++ o.name ++ " " ++ t)
  | .TypeName typ =>
    match typ.Underlying und with
    | .Struct fields =>
      printer.structFields typeString o.name (p.printf ("type " ++ o.name ++ " struct")) fields
    | .Interface methods =>
      match printer.interfaceMethods typeString o.name p [] methods with
      | none => none
      | some (p1, methodNames) =>
        if methodNames.length = 0 then
          some (p1.printf ("type " ++ o.name ++ " interface \x7b\x7d"))
        else
          some (p1.printf
            ("type " ++ o.name ++ " interface \x7b " ++ join (sortStrings methodNames) ", " ++
              " \x7d"))
    | u => (p.formatType typeString u).map fun t => p.printf ("type " ++ o.name ++ " " ++ t)
  | .Func sig =>
    match sig.recv with
    | some rec =>
      if ignoreRecv und rec.typ then some p
      else
        (p.formatType typeString rec.typ).bind fun r =>
          (p.formatSignature typeString sig).map fun s =>
            p.printf ("method (" ++ r ++ ") " ++ o.name ++ s)
    | none =>
      (p.formatSignature typeString sig).map fun s => p.printf ("func " ++ o.name ++ s)
  | _ => none

/-- The method `write`: the contents of the buffer after the call. -/
def printer.write (p : printer) (buff : String) : String :=
  (sortStrings p.lines).foldl
    (fun b line => b ++ "pkg " ++ p.pkgPath ++ ", " ++ line ++ "\n") buff

/-- The `range` loop of `formatAPI` over the definitions still to be visited. -/
def formatDefs (typeString : GoType → String) (und : TypeName → GoType) (pkg : Package) :
    printer → List (Option Object) → Option printer
  | p, [] => some p
  | p, none :: rest => formatDefs typeString und pkg p rest
  | p, some d :: rest =>
    if !d.exported then formatDefs typeString und pkg p rest
    else if d.parent ≠ none ∧ d.parent ≠ some pkg.scope then
      formatDefs typeString und pkg p rest
    else
      match p.formatObj typeString und d with
      | none => none
      | some p1 => formatDefs typeString und pkg p1 rest

/-- The function `formatAPI`: the contents of the buffer after the call, `none` when the call
panics. -/
def formatAPI (typeString : GoType → String) (und : TypeName → GoType) (pkg : Package)
    (info : Info) (buff : String) : Option String :=
  let p : printer := { lines := [], pkgPath := packagePath pkg }
  match formatDefs typeString und pkg p info.Defs with
  | none => none
  | some p1 => some (p1.write buff)

/-! ## The parts of the text of a signature -/

/-- The text `formatSignature` adds for one parameter; `last` tells whether it is the last
parameter of a variadic signature. -/
def paramText (ts : GoType → String) (p : printer) : Bool → GoType → Option String
  | true, .Slice elem => (p.formatType ts elem).map fun s => "..." ++ s
  | true, _ => none
  | false, t => p.formatType ts t

/-- The text between the parentheses of the parameter list, as built by the parameter loop
(the empty text for a nil tuple). -/
def paramsText (ts : GoType → String) (p : printer) (variadic : Bool) :
    Option (List Var) → Option String
  | none => some ""
  | some vars => p.formatParams ts variadic true vars

/-- The text appended after the parameter list for the results. -/
def resultsText (ts : GoType → String) (p : printer) : Option (List Var) → Option String
  | none => some ""
  | some [] => some ""
  | some [v] => (p.formatType ts v.typ).map fun s => " " ++ s
  | some (v :: w :: vars) =>
    (p.formatResults ts true (v :: w :: vars)).map fun s => " (" ++ s ++ ")"

/-! ## The document written by `write` -/

/-- The lines of the document `write` produces, each without its line break. -/
def printer.outputLines (p : printer) : List String :=
  (sortStrings p.lines).map fun line => "pkg " ++ p.pkgPath ++ ", " ++ line

/-- The concatenation of the given lines, each followed by a line break. -/
def document : List String → String
  | [] => ""
  | l :: ls => l ++ "\n" ++ document ls

/-- The lines of a text: the maximal runs of characters before each line break (a last run
that no line break ends is a line too). -/
def splitLines : List Char → List Char → List String
  | cur, [] => if cur = [] then [] else [⟨cur⟩]
  | cur, c :: cs => if c = '\n' then ⟨cur⟩ :: splitLines [] cs else splitLines (cur ++ [c]) cs

/-- The lines of a document. -/
def linesOf (doc : String) : List String := splitLines [] doc.data

/-! ## The lines added by the loops -/

/-- The printer with the given path and no line yet. -/
def emptyPrinter (path : String) : printer := { lines := [], pkgPath := path }

/-- The lines the field loop adds for the fields of a struct named `name`. -/
def structFieldLines (ts : GoType → String) (path name : String) :
    List Var → Option (List String)
  | [] => some []
  | f :: rest =>
    if !f.exported then structFieldLines ts path name rest
    else
      ((emptyPrinter path).formatType ts f.typ).bind fun t =>
        (structFieldLines ts path name rest).map fun ls =>
          ("type " ++ name ++ " struct, " ++ f.name ++ " " ++ t) :: ls

/-- The lines the method loop adds for the methods of an interface named `name`, and the
names it appends to `methodNames`. -/
def interfaceMethodLines (ts : GoType → String) (path name : String) :
    List Func → Option (List String × List String)
  | [] => some ([], [])
  | f :: rest =>
    if !f.exported then interfaceMethodLines ts path name rest
    else
      ((emptyPrinter path).formatSignature ts f.sig).bind fun s =>
        (interfaceMethodLines ts path name rest).map fun r =>
          (("type " ++ name ++ " interface, " ++ f.name ++ s) :: r.1, f.name :: r.2)

/-- The lines `formatObj` adds for an object, `none` when it panics. -/
def objLines (ts : GoType → String) (und : TypeName → GoType) (path : String) (o : Object) :
    Option (List String) :=
  ((emptyPrinter path).formatObj ts und o).map fun q => q.lines

/-- The lines one iteration of the loop of `formatAPI` adds. -/
def defLines (ts : GoType → String) (und : TypeName → GoType) (pkg : Package) (path : String) :
    Option Object → Option (List String)
  | none => some []
  | some d =>
    if !d.exported then some []
    else if d.parent ≠ none ∧ d.parent ≠ some pkg.scope then some []
    else objLines ts und path d

/-- The lines the loop of `formatAPI` adds, in the order of the visit. -/
def allLines (ts : GoType → String) (und : TypeName → GoType) (pkg : Package) (path : String) :
    List (Option Object) → Option (List String)
  | [] => some []
  | d :: rest =>
    (defLines ts und pkg path d).bind fun a =>
      (allLines ts und pkg path rest).map fun b => a ++ b

/-- Two runs of the loop agree up to the order of the collected lines: both panic, or both
end and the lines of one are a rearrangement of the lines of the other. -/
def SameLines : Option (List String) → Option (List String) → Prop
  | none, none => True
  | some a, some b => a.Perm b
  | _, _ => False

/-! ## Test inputs, after `api_test.go` -/

/-- The package `p` of the tests; its scope has the identity `0`. -/
def testPkg : Package := { path := "p", scope := 0 }

/-- The rendering of the struct and interface literals that occur in the tests. -/
def testTypeString : GoType → String
  | .Interface [] => "interface\x7b\x7d"
  | .Struct [] => "struct\x7b\x7d"
  | .Interface _ => "interface\x7b...\x7d"
  | _ => "struct\x7b...\x7d"

/-- A variable without a name, as the receivers, parameters and results of the tests. -/
def anon (t : GoType) : Var := .mk "" false t

/-- The type name `I` of the test "struct with fields". -/
def nameI : TypeName := { pkg := some testPkg, name := "I", exported := true }

/-- The type name `Foo` of the test "struct with fields". -/
def nameFoo : TypeName := { pkg := some testPkg, name := "Foo", exported := true }

/-- The signature of the method `Bar() string` of `I`. -/
def sigBar : Signature :=
  .mk (some (anon (.Named nameI))) (some []) (some [anon (.Basic "string")]) false

/-- The underlying types of the test "struct with fields":
`type I interface { Bar() string }` and `type Foo struct { A I; B map[string]I }`. -/
def testUnd : TypeName → GoType := fun n =>
  if n.name = "I" then .Interface [.mk "Bar" true sigBar]
  else .Struct [.mk "A" true (.Named nameI),
    .mk "B" true (.Map (.Basic "string") (.Named nameI))]

/-- The definitions recorded for the test "struct with fields". -/
def testDefs : List (Option Object) :=
  [some { name := "I", exported := true, parent := some 0, kind := .TypeName (.Named nameI) },
   some { name := "Bar", exported := true, parent := none, kind := .Func sigBar },
   some { name := "Foo", exported := true, parent := some 0, kind := .TypeName (.Named nameFoo) },
   some { name := "A", exported := true, parent := none,
          kind := .Var true (.Named nameI) },
   some { name := "B", exported := true, parent := none,
          kind := .Var true (.Map (.Basic "string") (.Named nameI)) }]

/-! ## Receivers -/

/-- The type `t` behind `n` pointer indirections. -/
def pointerTo : Nat → GoType → GoType
  | 0, t => t
  | n + 1, t => .Pointer (pointerTo n t)

/-- The exported type name `A` of the test "method". -/
def nameA : TypeName := { pkg := some testPkg, name := "A", exported := true }

/-- The unexported type name `a` of the test "method". -/
def namea : TypeName := { pkg := some testPkg, name := "a", exported := false }

/-- The object of `func (a *a) Hello()` of the test "method". -/
def helloOna : Object :=
  { name := "Hello", exported := true, parent := none,
    kind := .Func (.mk (some (.mk "a" false (.Pointer (.Named namea)))) (some []) none false) }

/-- The interface literal `interface { M() }`; the receiver of its method is cut off. -/
def ifaceM : GoType := .Interface [.mk "M" true (.mk none (some []) none false)]

/-- The object of the method `M` of the literal `interface { M() }`, as recorded for
`var X interface { M() }`: its receiver has the interface literal as its type. -/
def methodOfLiteral : Object :=
  { name := "M", exported := true, parent := none,
    kind := .Func (.mk (some (.mk "" false ifaceM)) (some []) none false) }

/-! ## Signatures -/

/-- The texts of the parameters: `formatType` of each parameter type, except that the last
parameter of a variadic signature is `...` followed by the rendering of its element type. -/
def paramTexts (ts : GoType → String) (p : printer) (variadic : Bool) :
    List Var → Option (List String)
  | [] => some []
  | v :: rest =>
    (paramText ts p (variadic && rest.isEmpty) v.typ).bind fun a =>
      (paramTexts ts p variadic rest).map fun l => a :: l

/-- The texts of the results: `formatType` of each result type. -/
def resultTexts (ts : GoType → String) (p : printer) : List Var → Option (List String)
  | [] => some []
  | v :: rest =>
    (p.formatType ts v.typ).bind fun a => (resultTexts ts p rest).map fun l => a :: l

/-- The rendering of a signature in the words of the specification: the comma-space-joined
parameter texts in parentheses, followed by nothing for no result, by a space and the result
for one result, by a space and the parenthesised comma-space-joined results otherwise. -/
def specSignature (ts : GoType → String) (p : printer) (sig : Signature) : Option String :=
  (paramTexts ts p sig.variadic (sig.params.getD [])).bind fun ps =>
    (resultTexts ts p (sig.results.getD [])).map fun rs =>
      "(" ++ join ps ", " ++ ")" ++
        (match rs with
          | [] => ""
          | [r] => " " ++ r
          | _ => " (" ++ join rs ", " ++ ")")

/-- Every text preceded by the separator. -/
def sepAll (sep : String) : List String → String
  | [] => ""
  | a :: l => sep ++ a ++ sepAll sep l

/-- The signature of `func Foo(b int, a ...interface{})` of the test "dot dot dot". -/
def sigFoo : Signature :=
  .mk none (some [.mk "b" false (.Basic "int"), .mk "a" false (.Slice (.Interface []))]) none
    true

/-! ## `packagePath` -/

/-- The text `sub` occurs in `s` at the index `i`. -/
def OccursAt (sub s : List Char) (i : Nat) : Prop := sub <+: s.drop i

/-! ## Interface declarations -/

/-- The type name `Foo` and the methods of the test "interface":
`type Foo interface { Read([]uint8) (int, error); Close() error }`. -/
def readCloseMethods : List Func :=
  [.mk "Read" true (.mk (some (anon (.Named nameFoo)))
      (some [anon (.Slice (.Basic "uint8"))])
      (some [anon (.Basic "int"), anon (.Named { pkg := none, name := "error", exported := false })])
      false),
   .mk "Close" true (.mk (some (anon (.Named nameFoo))) (some [])
      (some [anon (.Named { pkg := none, name := "error", exported := false })]) false)]

/-- The object of the declaration of `Foo` in the test "interface". -/
def declFoo : Object :=
  { name := "Foo", exported := true, parent := some 0, kind := .TypeName (.Named nameFoo) }

/-! ## Named types and vendored paths -/

/-- The rendering of a named type in the words of the specification: the bare name when the
type has no owning package or the de-vendored path of its owning package is the de-vendored
path of the package being rendered, `<de-vendored owning package path>.<Name>` otherwise. -/
def specNamed (cur : Package) (obj : TypeName) : String :=
  match obj.pkg with
  | none => obj.name
  | some owner =>
    if packagePath owner = packagePath cur then obj.name
    else packagePath owner ++ "." ++ obj.name

/-! ## Reading a type back from its rendering -/

/-- The characters that delimit the parts of a rendered type. -/
def isDelim (c : Char) : Bool :=
  c = ' ' || c = ',' || c = '(' || c = ')' || c = '[' || c = ']' || c = '*' || c = '<'

/-- A name as a rendered leaf: not empty, free of delimiters, not starting with a dot. -/
def cleanToken (t : List Char) : Bool :=
  !t.isEmpty && t.all (fun c => !isDelim c) && t.head? != some '.'

/-- The rendering of a named type by `formatType`. -/
def namedText (p : printer) (o : TypeName) : String :=
  match o.pkg with
  | none => o.name
  | some pkg =>
    if packagePath pkg = p.pkgPath then o.name
    else packagePath pkg ++ "." ++ o.name

/-- The type is a receive-only channel. -/
def isRecvChan : GoType → Bool
  | .Chan .RecvOnly _ => true
  | _ => false

mutual
/-- The types on which the rendering can be read back: built from basic and named types
with clean names by pointers, slices, arrays, maps, channels and signatures, where no
bidirectional channel has a receive-only channel as its element and only a signature with a
parameter is variadic. -/
def isPlain (p : printer) : GoType → Bool
  | .Basic name => cleanToken name.data
  | .Struct _ => false
  | .Named obj => cleanToken (namedText p obj).data
  | .Pointer elem => isPlain p elem
  | .Slice elem => isPlain p elem
  | .Array _ elem => isPlain p elem
  | .Signature sig => isPlainSig p sig
  | .Interface _ => false
  | .Map key elem => isPlain p key && isPlain p elem
  | .Chan .SendRecv elem => isPlain p elem && !isRecvChan elem
  | .Chan .SendOnly elem => isPlain p elem
  | .Chan .RecvOnly elem => isPlain p elem
  | .Tuple _ => false
/-- The signatures on which the rendering can be read back. -/
def isPlainSig (p : printer) : Signature → Bool
  | .mk _ none none variadic => !variadic
  | .mk _ none (some rs) variadic => !variadic && isPlainVars p rs
  | .mk _ (some ps) none variadic => (!variadic || !ps.isEmpty) && isPlainVars p ps
  | .mk _ (some ps) (some rs) variadic =>
    (!variadic || !ps.isEmpty) && isPlainVars p ps && isPlainVars p rs
/-- The tuples on which the rendering can be read back. -/
def isPlainVars (p : printer) : List Var → Bool
  | [] => true
  | (.mk _ _ t) :: rest => isPlain p t && isPlainVars p rest
end

mutual
/-- What the rendering tells of a type: the type with every leaf replaced by the basic type
of its rendered name, without receivers and names of parameters and results, a nil tuple
being the empty tuple. -/
def canonType (p : printer) : GoType → GoType
  | .Basic name => .Basic name
  | .Struct fields => .Struct fields
  | .Named obj => .Basic (namedText p obj)
  | .Pointer elem => .Pointer (canonType p elem)
  | .Slice elem => .Slice (canonType p elem)
  | .Array len elem => .Array len (canonType p elem)
  | .Signature sig => .Signature (canonSig p sig)
  | .Interface methods => .Interface methods
  | .Map key elem => .Map (canonType p key) (canonType p elem)
  | .Chan dir elem => .Chan dir (canonType p elem)
  | .Tuple vars => .Tuple vars
/-- What the rendering tells of a signature. -/
def canonSig (p : printer) : Signature → Signature
  | .mk _ none none variadic => .mk none (some []) (some []) variadic
  | .mk _ none (some rs) variadic => .mk none (some []) (some (canonVars p rs)) variadic
  | .mk _ (some ps) none variadic => .mk none (some (canonVars p ps)) (some []) variadic
  | .mk _ (some ps) (some rs) variadic =>
    .mk none (some (canonVars p ps)) (some (canonVars p rs)) variadic
/-- What the rendering tells of a tuple. -/
def canonVars (p : printer) : List Var → List Var
  | [] => []
  | (.mk _ _ t) :: rest => .mk "" false (canonType p t) :: canonVars p rest
end

/-- A text that may follow a run of non-delimiters: empty, or starting with a delimiter. -/
def DelimStart (f : List Char) : Prop := f = [] ∨ ∃ c rest, f = c :: rest ∧ isDelim c = true

/-- A text that may follow a rendered type: empty, or starting with `]`, `,` or `)`. -/
def Follow (f : List Char) : Prop :=
  f = [] ∨ ∃ c rest, f = c :: rest ∧ (c = ']' ∨ c = ',' ∨ c = ')')

/-! ### Decimal numerals -/

/-- The value of a decimal numeral. -/
def decimalValue (l : List Char) : Nat :=
  l.foldl (fun acc c => 10 * acc + (c.toNat - 48)) 0

/-! ### The first characters of a rendering -/

/-- The type is a leaf of the rendering: a basic or a named type. -/
def isLeaf : GoType → Bool
  | .Basic _ => true
  | .Named _ => true
  | _ => false

/-- A character that can start the rendering of a type. -/
def headOK (c : Char) : Bool :=
  c != '.' && c != ')' && c != ',' && c != ']' && c != ' ' && c != '('

/-- The characters every rendering of a type of the given shape starts with. -/
def headOf : GoType → List Char
  | .Pointer _ => ['*']
  | .Slice _ => ['[', ']']
  | .Array _ _ => ['[']
  | .Signature _ => ['f', 'u', 'n', 'c', '(']
  | .Map _ _ => ['m', 'a', 'p', '[']
  | .Chan .SendRecv _ => ['c', 'h', 'a', 'n', ' ']
  | .Chan .SendOnly _ => ['c', 'h', 'a', 'n', ' ', '<', '-', ' ']
  | .Chan .RecvOnly _ => ['<', '-', ' ', 'c', 'h', 'a', 'n', ' ']
  | _ => []

/-! ### Unique readability -/

/-- The rendering of `a`, followed by a text that may follow a type, determines the
canonical form of `a` and that text. -/
def TypeReadable (ts : GoType → String) (p : printer) (a : GoType) : Prop :=
  ∀ s, p.formatType ts a = some s → isPlain p a = true →
    ∀ b s', p.formatType ts b = some s' → isPlain p b = true →
      ∀ f g, Follow f → Follow g → s.data ++ f = s'.data ++ g →
        canonType p a = canonType p b ∧ f = g

/-- The rendering of a signature, followed by a text that may follow a type, determines the
canonical form of the signature and that text. -/
def SigReadable (ts : GoType → String) (p : printer) (a : Signature) : Prop :=
  ∀ s, p.formatSignature ts a = some s → isPlainSig p a = true →
    ∀ b s', p.formatSignature ts b = some s' → isPlainSig p b = true →
      ∀ f g, Follow f → Follow g → s.data ++ f = s'.data ++ g →
        canonSig p a = canonSig p b ∧ f = g

/-- The text of a tuple up to its closing parenthesis determines the canonical form of the
tuple, whether its last entry is variadic, and what follows the parenthesis. -/
def VarsReadable (ts : GoType → String) (p : printer) (l : List Var) : Prop :=
  ∀ v first s, p.formatParams ts v first l = some s → isPlainVars p l = true →
    ∀ l' v' s', p.formatParams ts v' first l' = some s' → isPlainVars p l' = true →
      ∀ x y, s.data ++ ')' :: x = s'.data ++ ')' :: y →
        canonVars p l = canonVars p l' ∧ (l ≠ [] → v = v') ∧ x = y

/-- The type `chan<- chan int`. -/
def chanSendOfChan : GoType := .Chan .SendOnly (.Chan .SendRecv (.Basic "int"))

/-- The type `chan (<-chan int)`. -/
def chanOfRecvChan : GoType := .Chan .SendRecv (.Chan .RecvOnly (.Basic "int"))

/-- The type `T` of the package `x/vendor/a`. -/
def vendoredT : GoType :=
  .Named { pkg := some { path := "x/vendor/a", scope := 1 }, name := "T", exported := true }

/-- The type `T` of the package `a`. -/
def plainT : GoType :=
  .Named { pkg := some { path := "a", scope := 2 }, name := "T", exported := true }

/-- The type `func(a string, b *T) (int, error)` with a receiver and named parameters. -/
def funcWithNames : GoType :=
  .Signature (.mk (some (.mk "r" false (.Named nameA)))
    (some [.mk "a" false (.Basic "string"), .mk "b" false (.Pointer (.Named nameA))])
    (some [.mk "n" false (.Basic "int"),
           .mk "err" false (.Named { pkg := none, name := "error", exported := false })])
    false)

/-- The type `func(string, *A) (int, error)` without receiver and names, its leaves basic. -/
def funcWithoutNames : GoType :=
  .Signature (.mk none
    (some [.mk "" false (.Basic "string"), .mk "" false (.Pointer (.Basic "A"))])
    (some [.mk "" false (.Basic "int"), .mk "" false (.Basic "error")])
    false)

/-! ## Further notions and test inputs -/

/-- The object of `type Foo interface {}` of the test "empty interface". -/
def declEmptyInterface : Object :=
  { name := "Foo", exported := true, parent := some 0, kind := .TypeName (.Interface []) }

/-- The type name `ContextKey` of the test "empty struct". -/
def nameContextKey : TypeName :=
  { pkg := some testPkg, name := "ContextKey", exported := true }

/-- The object of `type ContextKey struct{}` of the test "empty struct". -/
def declContextKey : Object :=
  { name := "ContextKey", exported := true, parent := some 0,
    kind := .TypeName (.Named nameContextKey) }

/-- The object of `type Foo struct { A I; B map[string]I }` of the test "struct with
fields". -/
def declFooStruct : Object :=
  { name := "Foo", exported := true, parent := some 0, kind := .TypeName (.Named nameFoo) }

/-- The line has the form `type <name> struct, ...` of the line of a struct field. -/
def IsFieldLine (name line : String) : Prop :=
  ("type " ++ name ++ " struct, ").data <+: line.data

/-- The definitions the loop of `formatAPI` passes to `formatObj`: those that are present,
exported, and whose parent scope is nil or the scope of the package. -/
def considered (pkg : Package) : Option Object → Bool
  | none => false
  | some d => d.exported && !decide (d.parent ≠ none ∧ d.parent ≠ some pkg.scope)

/-- The label `Error` of the test "labels", declared in the scope `5` of the body of `Foo`. -/
def labelError : Object :=
  { name := "Error", exported := true, parent := some 5, kind := .Label }

/-- The definitions recorded for the test "labels": the function `Foo`, its parameters `b`
and `a` (declared in the scope `4` of the function) and the label `Error`. -/
def labelDefs : List (Option Object) :=
  [some { name := "Foo", exported := true, parent := some 0, kind := .Func sigFoo },
   some { name := "b", exported := false, parent := some 4,
          kind := .Var false (.Basic "int") },
   some { name := "a", exported := false, parent := some 4,
          kind := .Var false (.Slice (.Interface [])) },
   some labelError]

/-- Definitions of which the second has a type of a shape `formatType` has no case for:
the constant `C` and a variable `V` whose type is a tuple. -/
def abortingDefs : List (Option Object) :=
  [some { name := "C", exported := true, parent := some 0,
          kind := .Const (.Basic "untyped string") .String },
   some { name := "V", exported := true, parent := some 0, kind := .Var false (.Tuple []) }]

/-- The object of `var B = 88` of the test "variable". -/
def varB : Object :=
  { name := "B", exported := true, parent := some 0, kind := .Var false (.Basic "int") }

/-- The object of a variable `X` whose type is the named type `A` of the test "method". -/
def varOfNamed : Object :=
  { name := "X", exported := true, parent := some 0, kind := .Var false (.Named nameA) }

/-- The object of the constant `C` of the test "constant", whose value is a string and whose
type is the untyped string type. -/
def constC : Object :=
  { name := "C", exported := true, parent := some 0,
    kind := .Const (.Basic "untyped string") .String }

/-- The object of a constant `C` declared with the named type `A` (as `const C A = "99"`
with `type A string`), whose value is a string. -/
def constCOfNamed : Object :=
  { name := "C", exported := true, parent := some 0, kind := .Const (.Named nameA) .String }

/-- How a call of `formatAPI` ends, with the contents of the buffer at that moment. -/
inductive Outcome where
  | returned (buff : String)
  | panicked (buff : String)
deriving DecidableEq, Repr

/-- The function `formatAPI` with the buffer kept on the panic path. The loop and the
methods it calls have no access to the buffer; `write`, the only statement that touches it,
is reached when the loop has ended without a panic. -/
def formatAPIOutcome (typeString : GoType → String) (und : TypeName → GoType) (pkg : Package)
    (info : Info) (buff : String) : Outcome :=
  let p : printer := { lines := [], pkgPath := packagePath pkg }
  match formatDefs typeString und pkg p info.Defs with
  | none => .panicked buff
  | some p1 => .returned (p1.write buff)

/-- The signature of `func Hello(a string, b int) (e error)` of the test "func". -/
def sigHello : Signature :=
  .mk none (some [.mk "a" false (.Basic "string"), .mk "b" false (.Basic "int")])
    (some [.mk "e" false (.Named { pkg := none, name := "error", exported := false })]) false

/-- The signature of a method `(r *A) Hello(x string, y int) (err error)`: the signature
`sigHello` with a receiver and other names. -/
def sigHelloMethod : Signature :=
  .mk (some (.mk "r" false (.Pointer (.Named nameA))))
    (some [.mk "x" false (.Basic "string"), .mk "y" false (.Basic "int")])
    (some [.mk "err" false (.Named { pkg := none, name := "error", exported := false })])
    false

/-! ## Well-formed types -/

/-- The type is a slice. -/
def isSlice : GoType → Bool
  | .Slice _ => true
  | _ => false

mutual
/-- The types built from the shapes `formatType` has a case for, in which the last parameter
of every variadic signature that `formatType` reaches is a slice. -/
def wellFormed : GoType → Bool
  | .Basic _ => true
  | .Struct _ => true
  | .Named _ => true
  | .Pointer elem => wellFormed elem
  | .Slice elem => wellFormed elem
  | .Array _ elem => wellFormed elem
  | .Signature sig => wellFormedSig sig
  | .Interface _ => true
  | .Map key elem => wellFormed key && wellFormed elem
  | .Chan _ elem => wellFormed elem
  | .Tuple _ => false
/-- The signatures whose parameters and results are well-formed and whose last parameter is
a slice when the signature is variadic. -/
def wellFormedSig : Signature → Bool
  | .mk _ none none _ => true
  | .mk _ none (some rs) _ => wellFormedVars false rs
  | .mk _ (some ps) none variadic => wellFormedVars variadic ps
  | .mk _ (some ps) (some rs) variadic => wellFormedVars variadic ps && wellFormedVars false rs
/-- The tuples of well-formed types whose last entry is a slice when `variadic` is set. -/
def wellFormedVars (variadic : Bool) : List Var → Bool
  | [] => true
  | (.mk _ _ t) :: rest =>
    (!(variadic && rest.isEmpty) || isSlice t) && wellFormed t && wellFormedVars variadic rest
end

/-- The type `func(int, ...string)` whose last parameter is the slice `[]string`. -/
def variadicOk : GoType :=
  .Signature (.mk none (some [anon (.Basic "int"), anon (.Slice (.Basic "string"))]) none true)

/-- A variadic signature whose last parameter is not a slice. -/
def variadicBad : Signature :=
  .mk none (some [anon (.Basic "int"), anon (.Basic "string")]) none true

/-! # Theorems -/

/-! ## Lemmas on the string order -/

theorem char_toNat_inj {a b : Char} (h : a.toNat = b.toNat) : a = b := by
  apply Char.ext
  apply UInt32.ext
  exact h

theorem lessChars_irrefl (a : List Char) : lessChars a a = false := by
  induction a with
  | nil => rfl
  | cons x xs ih => simp [lessChars, ih]

theorem lessChars_asymm : ∀ (a b : List Char), lessChars a b = true → lessChars b a = false
  | _, [] => by simp [lessChars]
  | [], _ :: _ => by simp [lessChars]
  | a :: as, b :: bs => by
    unfold lessChars
    by_cases h1 : a.toNat < b.toNat
    · have h2 : ¬ b.toNat < a.toNat := by omega
      simp [h1, h2]
    · by_cases h2 : b.toNat < a.toNat
      · simp [h1, h2]
      · simp only [h1, h2, if_false]
        exact lessChars_asymm as bs

theorem lessChars_antisymm : ∀ (a b : List Char), lessChars a b = false → lessChars b a = false → a = b
  | [], [] => by simp
  | _ :: _, [] => by simp [lessChars]
  | [], _ :: _ => by simp [lessChars]
  | a :: as, b :: bs => by
    unfold lessChars
    by_cases h1 : a.toNat < b.toNat
    · simp [h1]
    · by_cases h2 : b.toNat < a.toNat
      · simp [h1, h2]
      · simp only [h1, h2, if_false]
        intro h3 h4
        have := lessChars_antisymm as bs h3 h4
        have hc : a = b := char_toNat_inj (by omega)
        rw [this, hc]

theorem lessChars_trans : ∀ (a b c : List Char), lessChars b a = false → lessChars c b = false → lessChars c a = false
  | [], _, _ => by
    intro h1 h2
    rename_i b c
    cases b <;> cases c <;> simp_all [lessChars]
  | a :: as, [], c => by
    intro h1 h2
    cases c <;> simp_all [lessChars]
  | a :: as, b :: bs, [] => by
    intro h1 h2
    simp_all [lessChars]
  | a :: as, b :: bs, c :: cs => by
    unfold lessChars
    by_cases h1 : b.toNat < a.toNat
    · simp [h1]
    · by_cases h2 : a.toNat < b.toNat
      · simp only [h1, h2, if_true, if_false]
        intro _
        by_cases h3 : c.toNat < b.toNat
        · simp [h3]
        · by_cases h4 : b.toNat < c.toNat
          · have : ¬ c.toNat < a.toNat := by omega
            have : a.toNat < c.toNat := by omega
            simp_all
          · have : ¬ c.toNat < a.toNat := by omega
            have : a.toNat < c.toNat := by omega
            simp_all
      · simp only [h1, h2, if_false]
        intro h5
        by_cases h3 : c.toNat < b.toNat
        · simp [h3]
        · by_cases h4 : b.toNat < c.toNat
          · have : ¬ c.toNat < a.toNat := by omega
            have : a.toNat < c.toNat := by omega
            simp_all
          · have h6 : ¬ c.toNat < a.toNat := by omega
            have h7 : ¬ a.toNat < c.toNat := by omega
            simp only [h3, h4, h6, h7, if_false]
            exact lessChars_trans as bs cs h5

theorem lessChars_append_left (p : List Char) (a b : List Char) :
    lessChars (p ++ a) (p ++ b) = lessChars a b := by
  induction p with
  | nil => rfl
  | cons x xs ih => simp [lessChars, ih]

/-! ## Induction along the recursion of `formatType` -/

/-- Induction over types, signatures and tuples, along the recursion of `formatType`. -/
theorem goType_induct {P1 : GoType → Prop} {P2 : Signature → Prop} {P3 : List Var → Prop}
    (basic : ∀ n, P1 (.Basic n)) (struct : ∀ f, P1 (.Struct f)) (named : ∀ o, P1 (.Named o))
    (pointer : ∀ e, P1 e → P1 (.Pointer e)) (slice : ∀ e, P1 e → P1 (.Slice e))
    (array : ∀ n e, P1 e → P1 (.Array n e)) (signature : ∀ s, P2 s → P1 (.Signature s))
    (interface : ∀ m, P1 (.Interface m)) (map : ∀ k e, P1 k → P1 e → P1 (.Map k e))
    (chan : ∀ d e, P1 e → P1 (.Chan d e)) (tuple : ∀ l, P1 (.Tuple l))
    (sig : ∀ r ps rs v, (∀ l, ps = some l → P3 l) → (∀ l, rs = some l → P3 l) →
      P2 (.mk r ps rs v))
    (nil : P3 [])
    (cons : ∀ n x t rest, P1 t → (∀ e, t = .Slice e → P1 e) → P3 rest →
      P3 (.mk n x t :: rest)) :
    (∀ t, P1 t) ∧ (∀ s, P2 s) ∧ (∀ l, P3 l) := by
  let m1 : GoType → Prop := fun t => P1 t ∧ ∀ e, t = .Slice e → P1 e
  let m3 : Var → Prop := fun v => P1 v.typ ∧ ∀ e, v.typ = .Slice e → P1 e
  let m8 : Option (List Var) → Prop := fun o => ∀ l, o = some l → P3 l
  have A : ∀ t, m1 t := by
    intro t
    refine @GoType.rec m1 P2 m3 (fun _ => True) P3 (fun _ => True) (fun _ => True) m8
      ?_ ?_ ?_ ?_ ?_ ?_ ?_ ?_ ?_ ?_ ?_ ?_ ?_ ?_ ?_ ?_ ?_ ?_ ?_ ?_ ?_ ?_ t
    · exact fun n => ⟨basic n, fun e h => by cases h⟩
    · exact fun f _ => ⟨struct f, fun e h => by cases h⟩
    · exact fun o => ⟨named o, fun e h => by cases h⟩
    · exact fun e ih => ⟨pointer e ih.1, fun e h => by cases h⟩
    · exact fun e ih => ⟨slice e ih.1, fun e h => by cases h; exact ih.1⟩
    · exact fun n e ih => ⟨array n e ih.1, fun e h => by cases h⟩
    · exact fun s ih => ⟨signature s ih, fun e h => by cases h⟩
    · exact fun m _ => ⟨interface m, fun e h => by cases h⟩
    · exact fun k e ih1 ih2 => ⟨map k e ih1.1 ih2.1, fun e h => by cases h⟩
    · exact fun d e ih => ⟨chan d e ih.1, fun e h => by cases h⟩
    · exact fun l _ => ⟨tuple l, fun e h => by cases h⟩
    · exact fun r ps rs v _ h1 h2 => sig r ps rs v h1 h2
    · exact fun n x t ih => ih
    · exact fun _ _ _ _ => trivial
    · exact nil
    · exact fun head tail ih1 ih2 => by
        cases head with
        | mk n x t => exact cons n x t tail ih1.1 ih1.2 ih2
    · exact trivial
    · exact fun _ _ _ _ => trivial
    · exact trivial
    · exact fun _ _ => trivial
    · exact fun l h => by cases h
    · exact fun val ih l h => by cases h; exact ih
  have B : ∀ l, P3 l := by
    intro l
    induction l with
    | nil => exact nil
    | cons v rest ih =>
      cases v with
      | mk n x t => exact cons n x t rest (A t).1 (A t).2 ih
  refine ⟨fun t => (A t).1, ?_, B⟩
  intro s
  cases s with
  | mk r ps rs v => exact sig r ps rs v (fun l _ => B l) (fun l _ => B l)

/-! ## Unfolding lemmas for `formatSignature` -/

theorem formatSignature_eq (ts : GoType → String) (p : printer) (r : Option Var)
    (ps rs : Option (List Var)) (v : Bool) :
    p.formatSignature ts (.mk r ps rs v) =
      (paramsText ts p v ps).bind fun a =>
        (resultsText ts p rs).map fun b => "(" ++ a ++ ")" ++ b := by
  rcases ps with _ | pl <;> rcases rs with _ | (_ | ⟨⟨a, b, c⟩, (_ | ⟨w, vars⟩)⟩) <;>
    simp [printer.formatSignature, paramsText, resultsText, Var.typ]

theorem formatParams_nil (ts : GoType → String) (p : printer) (variadic first : Bool) :
    p.formatParams ts variadic first [] = some "" := by
  simp [printer.formatParams]

theorem formatParams_cons (ts : GoType → String) (p : printer) (variadic first : Bool)
    (v : Var) (rest : List Var) :
    p.formatParams ts variadic first (v :: rest) =
      (paramText ts p (variadic && rest.isEmpty) v.typ).bind fun a =>
        (p.formatParams ts variadic false rest).map fun b =>
          (if first then "" else ", ") ++ a ++ b := by
  obtain ⟨n, x, t⟩ := v
  rw [printer.formatParams.eq_def]
  have : ∀ b, (match b, t with
      | true, .Slice elem => (p.formatType ts elem).map fun s => "..." ++ s
      | true, _ => none
      | false, t => p.formatType ts t) = paramText ts p b t := by
    intro b
    cases b <;> cases t <;> rfl
  simp only [this]
  rfl

theorem formatResults_nil (ts : GoType → String) (p : printer) (first : Bool) :
    p.formatResults ts first [] = some "" := by
  simp [printer.formatResults]

theorem formatResults_cons (ts : GoType → String) (p : printer) (first : Bool)
    (v : Var) (rest : List Var) :
    p.formatResults ts first (v :: rest) =
      (p.formatType ts v.typ).bind fun a =>
        (p.formatResults ts false rest).map fun b =>
          (if first then "" else ", ") ++ a ++ b := by
  obtain ⟨n, x, t⟩ := v
  simp [printer.formatResults, Var.typ]

/-! ## The renderings read the printer only through `pkgPath` -/

theorem format_congr (ts : GoType → String) (p q : printer) (h : p.pkgPath = q.pkgPath) :
    (∀ t, p.formatType ts t = q.formatType ts t) ∧
    (∀ s, p.formatSignature ts s = q.formatSignature ts s) ∧
    (∀ l, ∀ variadic first,
      p.formatParams ts variadic first l = q.formatParams ts variadic first l ∧
      p.formatResults ts first l = q.formatResults ts first l) := by
  apply goType_induct
  · intro n; simp [printer.formatType]
  · intro f; simp [printer.formatType]
  · intro o; simp [printer.formatType, h]
  · intro e ih; simp [printer.formatType, ih]
  · intro e ih; simp [printer.formatType, ih]
  · intro n e ih; simp [printer.formatType, ih]
  · intro s ih; simp [printer.formatType, ih]
  · intro m; simp [printer.formatType]
  · intro k e ih1 ih2; simp [printer.formatType, ih1, ih2]
  · intro d e ih; cases d <;> simp [printer.formatType, ih]
  · intro l; simp [printer.formatType]
  · intro r ps rs v hp hr
    have e1 : paramsText ts p v ps = paramsText ts q v ps := by
      cases ps with
      | none => rfl
      | some l => exact (hp l rfl v true).1
    have e2 : resultsText ts p rs = resultsText ts q rs := by
      rcases rs with _ | (_ | ⟨⟨a, b, c⟩, (_ | ⟨w, vars⟩)⟩)
      · rfl
      · rfl
      · have h3 := (hr _ rfl false true).2
        simp only [formatResults_cons, formatResults_nil, Var.typ] at h3
        simp only [resultsText, Var.typ]
        cases h1 : p.formatType ts c <;> cases h2 : q.formatType ts c <;> simp_all
      · simp only [resultsText]
        rw [(hr _ rfl false true).2]
    rw [formatSignature_eq, formatSignature_eq, e1, e2]
  · intro variadic first; simp [printer.formatParams, printer.formatResults]
  · intro n x t rest iht ihs ihr variadic first
    have h1 := (ihr variadic false).1
    have h2 := (ihr variadic false).2
    constructor
    · rw [formatParams_cons, formatParams_cons, h1]
      have : ∀ b, paramText ts p b t = paramText ts q b t := by
        intro b
        cases b
        · simpa [paramText] using iht
        · cases t <;> simp [paramText]
          rename_i e
          rw [ihs e rfl]
      simp only [Var.typ, this]
    · rw [formatResults_cons, formatResults_cons, h2]
      simp only [Var.typ, iht]

/-! ## Sorting -/

theorem strLE_isTotal : IsTotal String strLE where
  total a b := by
    unfold strLE strLess
    cases h : lessChars b.data a.data
    · exact Or.inl rfl
    · exact Or.inr (lessChars_asymm _ _ h)

theorem strLE_isTrans : IsTrans String strLE where
  trans a b c h1 h2 := by
    unfold strLE strLess at *
    exact lessChars_trans a.data b.data c.data h1 h2

theorem strLE_isAntisymm : IsAntisymm String strLE where
  antisymm a b h1 h2 := by
    unfold strLE strLess at *
    have := lessChars_antisymm a.data b.data h2 h1
    exact String.ext this

theorem sortStrings_sorted (l : List String) : List.Sorted strLE (sortStrings l) := by
  haveI := strLE_isTotal
  haveI := strLE_isTrans
  exact List.sorted_insertionSort strLE l

theorem sortStrings_perm (l : List String) : (sortStrings l).Perm l :=
  List.perm_insertionSort strLE l

/-- Every sorted rearrangement of `l` is `sortStrings l`. -/
theorem sortStrings_unique (l l' : List String) (hp : l'.Perm l) (hs : List.Sorted strLE l') :
    l' = sortStrings l := by
  haveI := strLE_isAntisymm
  exact List.eq_of_perm_of_sorted (hp.trans (sortStrings_perm l).symm) hs (sortStrings_sorted l)

theorem sortStrings_congr {l l' : List String} (hp : l.Perm l') :
    sortStrings l = sortStrings l' :=
  sortStrings_unique l' (sortStrings l) ((sortStrings_perm l).trans hp) (sortStrings_sorted l)

theorem strLE_append_left (pre a b : String) : strLE (pre ++ a) (pre ++ b) ↔ strLE a b := by
  unfold strLE strLess
  rw [String.data_append, String.data_append, lessChars_append_left]

theorem sorted_map_prefix (pre : String) (l : List String) (h : List.Sorted strLE l) :
    List.Sorted strLE (l.map fun line => pre ++ line) := by
  unfold List.Sorted at *
  rw [List.pairwise_map]
  exact h.imp fun {a b} hab => (strLE_append_left pre a b).mpr hab

/-! ## The document written by `write` -/

theorem foldl_write (pre : String) (l : List String) (buff : String) :
    l.foldl (fun b line => b ++ "pkg " ++ pre ++ ", " ++ line ++ "\n") buff =
      buff ++ document (l.map fun line => "pkg " ++ pre ++ ", " ++ line) := by
  induction l generalizing buff with
  | nil => simp [document]
  | cons x xs ih =>
    rw [List.foldl_cons, ih]
    simp [document, String.append_assoc]

theorem write_eq (p : printer) (buff : String) :
    p.write buff = buff ++ document p.outputLines :=
  foldl_write p.pkgPath (sortStrings p.lines) buff

theorem splitLines_append (l cur rest : List Char) (h : '\n' ∉ l) :
    splitLines cur (l ++ '\n' :: rest) = ⟨cur ++ l⟩ :: splitLines [] rest := by
  induction l generalizing cur with
  | nil => simp [splitLines]
  | cons c cs ih =>
    have hc : c ≠ '\n' := fun e => h (by simp [e])
    have hcs : '\n' ∉ cs := fun e => h (by simp [e])
    simp [splitLines, hc, ih _ hcs]

theorem linesOf_document (l : List String) (h : ∀ x ∈ l, '\n' ∉ x.data) :
    linesOf (document l) = l := by
  induction l with
  | nil => simp [linesOf, document, splitLines]
  | cons x xs ih =>
    have hx := h x (by simp)
    have hxs := ih fun y hy => h y (by simp [hy])
    unfold linesOf at *
    simp only [document, String.data_append]
    rw [List.append_assoc, List.singleton_append, splitLines_append _ _ _ hx, hxs]
    simp

/-! ## The lines an object contributes do not depend on the lines collected before -/

theorem formatType_emptyPrinter (ts : GoType → String) (p : printer) (t : GoType) :
    p.formatType ts t = (emptyPrinter p.pkgPath).formatType ts t :=
  (format_congr ts p (emptyPrinter p.pkgPath) rfl).1 t

theorem formatSignature_emptyPrinter (ts : GoType → String) (p : printer) (s : Signature) :
    p.formatSignature ts s = (emptyPrinter p.pkgPath).formatSignature ts s :=
  (format_congr ts p (emptyPrinter p.pkgPath) rfl).2.1 s

theorem structFields_eq (ts : GoType → String) (name : String) (fields : List Var) :
    ∀ p : printer, printer.structFields ts name p fields =
      (structFieldLines ts p.pkgPath name fields).map fun ls =>
        { lines := p.lines ++ ls, pkgPath := p.pkgPath } := by
  induction fields with
  | nil => intro p; simp [printer.structFields, structFieldLines]
  | cons f rest ih =>
    intro p
    unfold printer.structFields structFieldLines
    by_cases he : f.exported = true
    · simp only [he, Bool.not_true, Bool.false_eq_true, if_false]
      rw [← formatType_emptyPrinter]
      cases ht : p.formatType ts f.typ with
      | none => simp
      | some t =>
        simp only [Option.some_bind, ih, printer.printf]
        cases structFieldLines ts p.pkgPath name rest <;> simp
    · simp only [he, Bool.not_false, if_true, ih]

theorem interfaceMethods_eq (ts : GoType → String) (name : String) (methods : List Func) :
    ∀ (p : printer) (names : List String),
      printer.interfaceMethods ts name p names methods =
        (interfaceMethodLines ts p.pkgPath name methods).map fun r =>
          ({ lines := p.lines ++ r.1, pkgPath := p.pkgPath }, names ++ r.2) := by
  induction methods with
  | nil => intro p names; simp [printer.interfaceMethods, interfaceMethodLines]
  | cons f rest ih =>
    intro p names
    unfold printer.interfaceMethods interfaceMethodLines
    by_cases he : f.exported = true
    · simp only [he, Bool.not_true, Bool.false_eq_true, if_false]
      rw [← formatSignature_emptyPrinter]
      cases ht : p.formatSignature ts f.sig with
      | none => simp
      | some t =>
        simp only [Option.some_bind, ih, printer.printf]
        cases interfaceMethodLines ts p.pkgPath name rest <;> simp
    · simp only [he, Bool.not_false, if_true, ih]

theorem formatObj_eq (ts : GoType → String) (und : TypeName → GoType) (p : printer)
    (o : Object) :
    p.formatObj ts und o =
      (objLines ts und p.pkgPath o).map fun ls =>
        { lines := p.lines ++ ls, pkgPath := p.pkgPath } := by
  unfold objLines printer.formatObj
  cases o.kind with
  | Const typ val => simp [printer.printf, emptyPrinter]
  | Var isField typ =>
    cases isField
    · simp only [Bool.false_eq_true, if_false]
      rw [formatType_emptyPrinter]
      cases (emptyPrinter p.pkgPath).formatType ts (typ.Underlying und) <;>
        simp [printer.printf, emptyPrinter]
    · simp [emptyPrinter]
  | TypeName typ =>
    simp only []
    generalize typ.Underlying und = u
    cases u with
    | Struct fields =>
      simp only [structFields_eq, printer.printf, emptyPrinter]
      cases structFieldLines ts p.pkgPath o.name fields <;> simp
    | Interface methods =>
      simp only [interfaceMethods_eq, emptyPrinter]
      cases interfaceMethodLines ts p.pkgPath o.name methods with
      | none => simp
      | some r =>
        simp only [Option.map_some', List.nil_append, printer.printf]
        split <;> simp
    | _ =>
      simp only []
      rw [formatType_emptyPrinter]
      cases (emptyPrinter p.pkgPath).formatType ts _ <;> simp [printer.printf, emptyPrinter]
  | Func sig =>
    simp only []
    rw [formatSignature_emptyPrinter ts p]
    generalize sig.recv = r
    cases r with
    | none =>
      cases (emptyPrinter p.pkgPath).formatSignature ts sig <;>
        simp [printer.printf, emptyPrinter]
    | some rec =>
      simp only []
      rw [formatType_emptyPrinter ts p]
      split
      · simp [emptyPrinter]
      · cases (emptyPrinter p.pkgPath).formatSignature ts sig <;>
          cases (emptyPrinter p.pkgPath).formatType ts rec.typ <;>
            simp [printer.printf, emptyPrinter]
  | _ => simp

theorem formatDefs_eq (ts : GoType → String) (und : TypeName → GoType) (pkg : Package)
    (defs : List (Option Object)) :
    ∀ p : printer, formatDefs ts und pkg p defs =
      (allLines ts und pkg p.pkgPath defs).map fun ls =>
        { lines := p.lines ++ ls, pkgPath := p.pkgPath } := by
  induction defs with
  | nil => intro p; simp [formatDefs, allLines]
  | cons d rest ih =>
    intro p
    cases d with
    | none => simp [formatDefs, allLines, defLines, ih]
    | some d =>
      unfold formatDefs allLines defLines
      by_cases he : d.exported = true
      · simp only [he, Bool.not_true, Bool.false_eq_true, if_false]
        by_cases hs : d.parent ≠ none ∧ d.parent ≠ some pkg.scope
        · rw [if_pos hs, if_pos hs, ih]
          simp
        · rw [if_neg hs, if_neg hs, formatObj_eq]
          cases objLines ts und p.pkgPath d with
          | none => simp
          | some a =>
            simp only [Option.map_some', Option.some_bind, ih]
            cases allLines ts und pkg p.pkgPath rest <;> simp
      · simp only [he, Bool.not_false, if_true, ih]
        simp

theorem formatAPI_eq (ts : GoType → String) (und : TypeName → GoType) (pkg : Package)
    (info : Info) (buff : String) :
    formatAPI ts und pkg info buff =
      (allLines ts und pkg (packagePath pkg) info.Defs).map fun ls =>
        buff ++ document ((sortStrings ls).map fun line =>
          "pkg " ++ packagePath pkg ++ ", " ++ line) := by
  unfold formatAPI
  simp only [formatDefs_eq]
  cases allLines ts und pkg (packagePath pkg) info.Defs with
  | none => rfl
  | some ls => simp [write_eq, printer.outputLines]

theorem SameLines.refl (a : Option (List String)) : SameLines a a := by
  cases a <;> simp [SameLines]

theorem SameLines.trans {a b c : Option (List String)} (h1 : SameLines a b)
    (h2 : SameLines b c) : SameLines a c := by
  cases a <;> cases b <;> cases c <;> simp_all [SameLines]
  exact h1.trans h2

theorem allLines_perm (ts : GoType → String) (und : TypeName → GoType) (pkg : Package)
    (path : String) {defs defs' : List (Option Object)} (h : defs.Perm defs') :
    SameLines (allLines ts und pkg path defs) (allLines ts und pkg path defs') := by
  induction h with
  | nil => exact SameLines.refl _
  | @cons x l1 l2 _ ih =>
    simp only [allLines]
    cases defLines ts und pkg path x with
    | none => simp [SameLines]
    | some a =>
      revert ih
      cases allLines ts und pkg path l1 <;> cases allLines ts und pkg path l2 <;>
        simp [SameLines]
      exact fun h => List.Perm.append_left a h
  | swap x y l =>
    simp only [allLines]
    cases defLines ts und pkg path x <;> cases defLines ts und pkg path y <;>
      cases allLines ts und pkg path l <;> simp [SameLines]
    rename_i a b c
    rw [← List.append_assoc, ← List.append_assoc]
    exact List.Perm.append_right c List.perm_append_comm
  | trans _ _ ih1 ih2 => exact ih1.trans ih2

/-! ## The document is sorted and does not depend on the visiting order -/

/-- C1: when `formatAPI` returns, the document it appends to the buffer consists of the lines
`outputLines` of the printer the loop ends with, each followed by a line break; these lines
are the sorted collected lines with the constant prefix `pkg <path>, ` put in front, and both
the sorted bodies and the prefixed lines are non-decreasing in the order of Go's string
comparison. When no line contains a line break, splitting the document at its line breaks
gives back exactly these lines. -/
theorem formatAPI_lines_sorted (ts : GoType → String) (und : TypeName → GoType)
    (pkg : Package) (info : Info) (buff out : String)
    (h : formatAPI ts und pkg info buff = some out) :
    ∃ p : printer,
      formatDefs ts und pkg { lines := [], pkgPath := packagePath pkg } info.Defs = some p ∧
      out = buff ++ document p.outputLines ∧
      p.outputLines =
        (sortStrings p.lines).map (fun line => "pkg " ++ packagePath pkg ++ ", " ++ line) ∧
      List.Sorted strLE (sortStrings p.lines) ∧
      List.Sorted strLE p.outputLines ∧
      ((∀ l ∈ p.outputLines, '\n' ∉ l.data) → linesOf (document p.outputLines) = p.outputLines) := by
  unfold formatAPI at h
  cases hp : formatDefs ts und pkg { lines := [], pkgPath := packagePath pkg } info.Defs with
  | none => simp [hp] at h
  | some p =>
    simp only [hp, Option.some.injEq] at h
    have hpath : p.pkgPath = packagePath pkg := by
      rw [formatDefs_eq] at hp
      cases hl : allLines ts und pkg (packagePath pkg) info.Defs with
      | none => simp [hl] at hp
      | some ls =>
        simp only [hl, Option.map_some', Option.some.injEq] at hp
        rw [← hp]
    refine ⟨p, rfl, ?_, ?_, sortStrings_sorted _, ?_, linesOf_document _⟩
    · rw [← h, write_eq]
    · simp [printer.outputLines, hpath]
    · exact sorted_map_prefix _ _ (sortStrings_sorted _)

theorem formatAPI_lines_sorted_witness :
    ∃ p : printer,
      formatDefs testTypeString testUnd testPkg
        { lines := [], pkgPath := packagePath testPkg } testDefs = some p ∧
      "pkg p, type Foo struct\npkg p, type Foo struct, A I\npkg p, type Foo struct, B map[string]I\npkg p, type I interface \x7b Bar \x7d\npkg p, type I interface, Bar() string\n" =
        "" ++ document p.outputLines ∧
      p.outputLines =
        (sortStrings p.lines).map (fun line => "pkg " ++ packagePath testPkg ++ ", " ++ line) ∧
      List.Sorted strLE (sortStrings p.lines) ∧
      List.Sorted strLE p.outputLines ∧
      ((∀ l ∈ p.outputLines, '\n' ∉ l.data) → linesOf (document p.outputLines) = p.outputLines) :=
  formatAPI_lines_sorted testTypeString testUnd testPkg { Defs := testDefs } ""
    "pkg p, type Foo struct\npkg p, type Foo struct, A I\npkg p, type Foo struct, B map[string]I\npkg p, type I interface \x7b Bar \x7d\npkg p, type I interface, Bar() string\n"
    (by decide)

/-- C2: the output of `formatAPI` does not depend on the order in which the definitions are
visited: on two visiting orders that are rearrangements of each other `formatAPI` panics on
both or returns the same buffer contents on both. -/
theorem formatAPI_order_independent (ts : GoType → String) (und : TypeName → GoType)
    (pkg : Package) (defs defs' : List (Option Object)) (buff : String)
    (h : defs.Perm defs') :
    formatAPI ts und pkg { Defs := defs } buff = formatAPI ts und pkg { Defs := defs' } buff := by
  rw [formatAPI_eq, formatAPI_eq]
  have hl := allLines_perm ts und pkg (packagePath pkg) h
  revert hl
  cases allLines ts und pkg (packagePath pkg) defs <;>
    cases allLines ts und pkg (packagePath pkg) defs' <;> simp [SameLines]
  intro hperm
  rw [sortStrings_congr hperm]

theorem formatAPI_order_independent_witness :
    formatAPI testTypeString testUnd testPkg { Defs := testDefs } "" =
      formatAPI testTypeString testUnd testPkg { Defs := testDefs.reverse } "" :=
  formatAPI_order_independent testTypeString testUnd testPkg testDefs testDefs.reverse ""
    (List.reverse_perm testDefs).symm

/-! ## Receivers -/

theorem ignoreRecv_pointerTo (und : TypeName → GoType) (n : Nat) (t : GoType) :
    ignoreRecv und (pointerTo n t) = ignoreRecv und t := by
  induction n with
  | zero => rfl
  | succ n ih => simpa [pointerTo, ignoreRecv] using ih

theorem ignoreRecv_unexported (und : TypeName → GoType) (obj : TypeName)
    (h : obj.exported = false) : ignoreRecv und (.Named obj) = true := by
  unfold ignoreRecv
  cases und obj <;> simp [h]

/-- C4: an exported method whose receiver type is an unexported named type, directly or behind
any number of pointer indirections, is ignored: `ignoreRecv` returns true for the receiver
type and `formatObj` returns the printer unchanged, adding no line. -/
theorem formatObj_unexported_receiver (ts : GoType → String) (und : TypeName → GoType)
    (p : printer) (o : Object) (sig : Signature) (rec : Var) (obj : TypeName) (n : Nat)
    (hk : o.kind = .Func sig) (hr : sig.recv = some rec)
    (ht : rec.typ = pointerTo n (.Named obj)) (he : obj.exported = false) :
    ignoreRecv und rec.typ = true ∧ p.formatObj ts und o = some p := by
  have hi : ignoreRecv und rec.typ = true := by
    rw [ht, ignoreRecv_pointerTo, ignoreRecv_unexported und obj he]
  refine ⟨hi, ?_⟩
  unfold printer.formatObj
  rw [hk]
  simp only [hr, hi, if_true]

theorem formatObj_unexported_receiver_witness :
    ignoreRecv (fun _ => .Struct []) (GoType.Pointer (.Named namea)) = true ∧
      (emptyPrinter "p").formatObj testTypeString (fun _ => .Struct []) helloOna =
        some (emptyPrinter "p") :=
  formatObj_unexported_receiver testTypeString (fun _ => .Struct []) (emptyPrinter "p") helloOna
    (.mk (some (.mk "a" false (.Pointer (.Named namea)))) (some []) none false)
    (.mk "a" false (.Pointer (.Named namea))) namea 1 rfl rfl rfl rfl

/-- C5 (failing input): for the method `M` of the interface literal of
`var X interface { M() }` the receiver's type is an interface and is its own underlying type,
yet `ignoreRecv` returns false and `formatObj` adds a `method (...)` line. -/
theorem formatObj_interface_literal_receiver :
    (∃ ms, ifaceM.Underlying (fun _ => .Struct []) = .Interface ms) ∧
    ignoreRecv (fun _ => .Struct []) ifaceM = false ∧
    (emptyPrinter "p").formatObj (fun _ => "interface\x7bM()\x7d") (fun _ => .Struct [])
        methodOfLiteral =
      some { lines := ["method (interface\x7bM()\x7d) M()"], pkgPath := "p" } := by
  refine ⟨⟨_, rfl⟩, rfl, ?_⟩
  decide

/-! ## Signatures -/

theorem intercalate_go (sep acc : String) (l : List String) :
    String.intercalate.go acc sep l = acc ++ sepAll sep l := by
  induction l generalizing acc with
  | nil => simp [String.intercalate.go, sepAll]
  | cons a l ih => simp [String.intercalate.go, sepAll, ih, String.append_assoc]

theorem join_cons (sep a : String) (l : List String) :
    join (a :: l) sep = a ++ sepAll sep l := by
  simp [join, String.intercalate, intercalate_go]

theorem join_nil (sep : String) : join [] sep = "" := rfl

theorem formatParams_false (ts : GoType → String) (p : printer) (variadic : Bool)
    (l : List Var) :
    p.formatParams ts variadic false l = (paramTexts ts p variadic l).map (sepAll ", ") := by
  induction l with
  | nil => simp [formatParams_nil, paramTexts, sepAll]
  | cons v rest ih =>
    rw [formatParams_cons, ih]
    simp only [paramTexts]
    cases paramText ts p (variadic && rest.isEmpty) v.typ <;>
      cases paramTexts ts p variadic rest <;> simp [sepAll, String.append_assoc]

theorem formatParams_true (ts : GoType → String) (p : printer) (variadic : Bool)
    (l : List Var) :
    p.formatParams ts variadic true l =
      (paramTexts ts p variadic l).map fun ss => join ss ", " := by
  cases l with
  | nil => simp [formatParams_nil, paramTexts, join_nil]
  | cons v rest =>
    rw [formatParams_cons, formatParams_false]
    simp only [paramTexts]
    cases paramText ts p (variadic && rest.isEmpty) v.typ <;>
      cases paramTexts ts p variadic rest <;> simp [join_cons]

theorem formatResults_false (ts : GoType → String) (p : printer) (l : List Var) :
    p.formatResults ts false l = (resultTexts ts p l).map (sepAll ", ") := by
  induction l with
  | nil => simp [formatResults_nil, resultTexts, sepAll]
  | cons v rest ih =>
    rw [formatResults_cons, ih]
    simp only [resultTexts]
    cases p.formatType ts v.typ <;>
      cases resultTexts ts p rest <;> simp [sepAll, String.append_assoc]

theorem formatResults_true (ts : GoType → String) (p : printer) (l : List Var) :
    p.formatResults ts true l = (resultTexts ts p l).map fun ss => join ss ", " := by
  cases l with
  | nil => simp [formatResults_nil, resultTexts, join_nil]
  | cons v rest =>
    rw [formatResults_cons, formatResults_false]
    simp only [resultTexts]
    cases p.formatType ts v.typ <;>
      cases resultTexts ts p rest <;> simp [join_cons]

theorem paramsText_eq (ts : GoType → String) (p : printer) (variadic : Bool)
    (ps : Option (List Var)) :
    paramsText ts p variadic ps =
      (paramTexts ts p variadic (ps.getD [])).map fun ss => join ss ", " := by
  cases ps with
  | none => simp [paramsText, paramTexts, join_nil]
  | some l => simp [paramsText, formatParams_true]

theorem resultsText_eq (ts : GoType → String) (p : printer) (rs : Option (List Var)) :
    resultsText ts p rs =
      (resultTexts ts p (rs.getD [])).map fun ss =>
        match ss with
        | [] => ""
        | [r] => " " ++ r
        | _ => " (" ++ join ss ", " ++ ")" := by
  rcases rs with _ | (_ | ⟨v, (_ | ⟨w, vars⟩)⟩)
  · simp [resultsText, resultTexts]
  · simp [resultsText, resultTexts]
  · simp only [resultsText, resultTexts, Option.getD_some]
    cases p.formatType ts v.typ <;> simp
  · simp only [resultsText, formatResults_true, resultTexts, Option.getD_some]
    cases p.formatType ts v.typ <;> cases p.formatType ts w.typ <;>
      cases resultTexts ts p vars <;> simp

/-- C7: `formatSignature` returns, for every signature, the rendering described by the
specification: `(`, the comma-space-joined parameter texts, `)`, then nothing for no result,
a space and the bare result text for exactly one result, a space and the parenthesised
comma-space-joined result texts for two or more; it panics exactly when rendering one of
the parameters or results panics. -/
theorem formatSignature_eq_spec (ts : GoType → String) (p : printer) (sig : Signature) :
    p.formatSignature ts sig = specSignature ts p sig := by
  obtain ⟨r, ps, rs, v⟩ := sig
  rw [formatSignature_eq, paramsText_eq, resultsText_eq]
  simp only [specSignature, Signature.variadic, Signature.params, Signature.results]
  cases paramTexts ts p v (ps.getD []) <;> cases resultTexts ts p (rs.getD []) <;> simp

theorem string_append_left_cancel {a b c : String} (h : a ++ b = a ++ c) : b = c := by
  have := congrArg String.data h
  rw [String.data_append, String.data_append] at this
  exact String.ext (List.append_cancel_left this)

theorem sepAll_append (sep : String) (l m : List String) :
    sepAll sep (l ++ m) = sepAll sep l ++ sepAll sep m := by
  induction l with
  | nil => simp [sepAll]
  | cons a l ih => simp [sepAll, ih, String.append_assoc]

theorem join_append_singleton_inj (sep : String) (l : List String) {a b : String}
    (h : join (l ++ [a]) sep = join (l ++ [b]) sep) : a = b := by
  cases l with
  | nil => simpa [join_cons, sepAll] using h
  | cons t l =>
    simp only [List.cons_append, join_cons, sepAll_append, sepAll, String.append_assoc] at h
    have h1 := string_append_left_cancel (string_append_left_cancel
      (string_append_left_cancel h))
    simpa using h1

theorem paramTexts_variadic (ts : GoType → String) (p : printer) (init : List Var)
    (last : Var) (X : GoType) (texts : List String) (x : String)
    (hinit : List.Forall₂ (fun v s => p.formatType ts v.typ = some s) init texts)
    (hlast : last.typ = .Slice X) (hx : p.formatType ts X = some x) :
    paramTexts ts p true (init ++ [last]) = some (texts ++ ["..." ++ x]) := by
  induction hinit with
  | nil => simp [paramTexts, paramText, hlast, hx]
  | @cons v s vs ss hv _ ih =>
    have hne : (vs ++ [last]).isEmpty = false := by cases vs <;> rfl
    simp [paramTexts, hne, paramText, hv, ih]

/-- C6: for a variadic signature whose parameters are `init` followed by a last parameter of
type slice of `X`, `formatSignature` renders the parameter list as the comma-space join of
the renderings of the types of `init` followed by `...` and the rendering of `X`; the text
for the results follows the closing parenthesis. This parameter text differs from the one
with `[]` and the rendering of `X` in the last place. -/
theorem formatSignature_variadic (ts : GoType → String) (p : printer) (r : Option Var)
    (init : List Var) (last : Var) (X : GoType) (rs : Option (List Var))
    (texts : List String) (x : String)
    (hinit : List.Forall₂ (fun v s => p.formatType ts v.typ = some s) init texts)
    (hlast : last.typ = .Slice X) (hx : p.formatType ts X = some x) :
    p.formatSignature ts (.mk r (some (init ++ [last])) rs true) =
        (resultsText ts p rs).map
          (fun res => "(" ++ join (texts ++ ["..." ++ x]) ", " ++ ")" ++ res) ∧
      join (texts ++ ["..." ++ x]) ", " ≠ join (texts ++ ["[]" ++ x]) ", " := by
  constructor
  · rw [formatSignature_eq, paramsText_eq, Option.getD_some,
      paramTexts_variadic ts p init last X texts x hinit hlast hx]
    simp
  · intro h
    have h1 := congrArg String.data (join_append_singleton_inj ", " texts h)
    simp at h1

theorem formatSignature_variadic_witness :
    (emptyPrinter "p").formatSignature testTypeString sigFoo =
        (resultsText testTypeString (emptyPrinter "p") none).map
          (fun res => "(" ++ join (["int"] ++ ["..." ++ "interface\x7b\x7d"]) ", " ++ ")" ++ res) ∧
      join (["int"] ++ ["..." ++ "interface\x7b\x7d"]) ", " ≠
        join (["int"] ++ ["[]" ++ "interface\x7b\x7d"]) ", " :=
  formatSignature_variadic testTypeString (emptyPrinter "p") none
    [.mk "b" false (.Basic "int")] (.mk "a" false (.Slice (.Interface []))) (.Interface [])
    none ["int"] "interface\x7b\x7d" (List.Forall₂.cons rfl List.Forall₂.nil) rfl rfl

theorem sigFoo_rendering :
    (emptyPrinter "p").formatSignature testTypeString sigFoo = some "(int, ...interface\x7b\x7d)" := by
  decide

/-! ## `packagePath` -/

theorem isPrefixOf_eq_true_iff (sub s : List Char) :
    sub.isPrefixOf s = true ↔ sub <+: s := List.isPrefixOf_iff_prefix

theorem lastIndexFrom_spec (s sub : List Char) (n : Nat) :
    (lastIndexFrom s sub n = -1 ∧ ∀ i, i ≤ n → ¬ OccursAt sub s i) ∨
    (∃ i, i ≤ n ∧ lastIndexFrom s sub n = (i : Int) ∧ OccursAt sub s i ∧
      ∀ j, i < j → j ≤ n → ¬ OccursAt sub s j) := by
  induction n with
  | zero =>
    unfold lastIndexFrom
    by_cases h : sub.isPrefixOf s = true
    · right
      refine ⟨0, le_refl _, by simp [h], ?_, ?_⟩
      · simpa [OccursAt] using (isPrefixOf_eq_true_iff sub s).mp h
      · intro j h1 h2; omega
    · left
      refine ⟨by simp [h], ?_⟩
      intro i hi ho
      have : i = 0 := by omega
      subst this
      exact h ((isPrefixOf_eq_true_iff sub s).mpr (by simpa [OccursAt] using ho))
  | succ n ih =>
    unfold lastIndexFrom
    by_cases h : sub.isPrefixOf (s.drop (n + 1)) = true
    · right
      refine ⟨n + 1, le_refl _, by simp [h], (isPrefixOf_eq_true_iff _ _).mp h, ?_⟩
      intro j h1 h2; omega
    · have hno : ¬ OccursAt sub s (n + 1) := fun ho => h ((isPrefixOf_eq_true_iff _ _).mpr ho)
      simp only [h, if_false]
      rcases ih with ⟨h1, h2⟩ | ⟨i, hi, h1, h2, h3⟩
      · left
        refine ⟨h1, ?_⟩
        intro i hi
        by_cases hin : i = n + 1
        · rw [hin]; exact hno
        · exact h2 i (by omega)
      · right
        refine ⟨i, by omega, h1, h2, ?_⟩
        intro j hj1 hj2
        by_cases hjn : j = n + 1
        · rw [hjn]; exact hno
        · exact h3 j hj1 (by omega)

theorem occursAt_le (sub s : List Char) (i : Nat) (hsub : sub ≠ []) (h : OccursAt sub s i) :
    i ≤ s.length - sub.length := by
  have h1 := h.length_le
  rw [List.length_drop] at h1
  have h2 : 0 < sub.length := List.length_pos.mpr hsub
  omega

theorem occursAt_of_append (sub a b : List Char) : OccursAt sub (a ++ sub ++ b) a.length := by
  unfold OccursAt
  rw [List.append_assoc, List.drop_left]
  exact List.prefix_append _ _

theorem occursAt_split (sub s : List Char) (i : Nat) (h : OccursAt sub s i) (hi : i ≤ s.length) :
    s = s.take i ++ sub ++ s.drop (i + sub.length) ∧ (s.take i).length = i := by
  obtain ⟨t, ht⟩ := h
  have h1 : s.drop (i + sub.length) = t := by
    rw [← List.drop_drop, ← ht, List.drop_left]
  refine ⟨?_, by simp [hi]⟩
  rw [h1, List.append_assoc, ht, List.take_append_drop]

/-- C9: `packagePath` returns the path unchanged when it contains no occurrence of
`/vendor/`; otherwise the path is `pre ++ "/vendor/" ++ result` for some `pre`, and no
occurrence of `/vendor/` in the path starts after the one that follows `pre`, that is the
result is the suffix following the last occurrence. -/
theorem packagePath_last_vendor (pkg : Package) :
    ((¬ ∃ a b : String, pkg.path = a ++ "/vendor/" ++ b) ∧ packagePath pkg = pkg.path) ∨
    (∃ pre : String, pkg.path = pre ++ "/vendor/" ++ packagePath pkg ∧
      ∀ a b : String, pkg.path = a ++ "/vendor/" ++ b → a.length ≤ pre.length) := by
  have hv : vendor.data ≠ [] := by decide
  have hocc : ∀ a b : String, pkg.path = a ++ "/vendor/" ++ b →
      OccursAt vendor.data pkg.path.data a.length := by
    intro a b hab
    rw [hab]
    simp only [String.data_append]
    exact occursAt_of_append vendor.data a.data b.data
  unfold packagePath lastIndex
  simp only []
  rcases lastIndexFrom_spec pkg.path.data vendor.data (pkg.path.length - vendor.length) with
    ⟨h1, h2⟩ | ⟨i, hi, h1, h2, h3⟩
  · left
    refine ⟨?_, by simp [h1]⟩
    rintro ⟨a, b, hab⟩
    have ho := hocc a b hab
    exact h2 _ (occursAt_le _ _ _ hv ho) ho
  · right
    have hlen : i ≤ pkg.path.data.length := by
      have : pkg.path.length = pkg.path.data.length := rfl
      omega
    obtain ⟨hs, hl⟩ := occursAt_split _ _ i h2 hlen
    refine ⟨⟨pkg.path.data.take i⟩, ?_, ?_⟩
    · have hneg : ¬ ((i : Int) < 0) := by omega
      rw [h1, if_neg hneg]
      apply String.ext
      simp only [String.data_append, sliceFrom]
      have : ((i : Int) + (vendor.length : Int)).toNat = i + vendor.data.length := by
        have : vendor.length = vendor.data.length := rfl
        omega
      rw [this]
      exact hs
    · intro a b hab
      have ho := hocc a b hab
      have hle := occursAt_le _ _ _ hv ho
      by_contra hcon
      have hlt : i < a.length := by
        have : (⟨pkg.path.data.take i⟩ : String).length = i := hl
        omega
      exact h3 _ hlt hle ho

theorem packagePath_examples :
    packagePath { path := "x/vendor/a/b", scope := 0 } = "a/b" ∧
    packagePath { path := "a/vendor/b/vendor/c", scope := 0 } = "c" ∧
    packagePath { path := "net/http", scope := 0 } = "net/http" := by
  decide

/-! ## Interface declarations -/

theorem interfaceMethodLines_eq (ts : GoType → String) (path name : String)
    (methods : List Func) :
    ∀ sigs : List String,
      List.Forall₂ (fun f s => (emptyPrinter path).formatSignature ts f.sig = some s)
        (methods.filter fun f => f.exported) sigs →
      interfaceMethodLines ts path name methods =
        some (List.zipWith (fun f s => "type " ++ name ++ " interface, " ++ f.name ++ s)
            (methods.filter fun f => f.exported) sigs,
          (methods.filter fun f => f.exported).map fun f => f.name) := by
  induction methods with
  | nil =>
    intro sigs h
    cases h
    simp [interfaceMethodLines]
  | cons f rest ih =>
    intro sigs h
    unfold interfaceMethodLines
    by_cases he : f.exported = true
    · simp only [List.filter_cons, he, if_true] at h
      cases h with
      | cons h1 h2 =>
        simp [he, h1, ih _ h2]
    · simp only [List.filter_cons, he] at h
      simp [he, ih _ h]

/-- C10: for a type declaration whose underlying type is an interface, `formatObj` adds, in
the order of the methods, one line `type <Name> interface, <MethodName><signature>` for each
exported method and none for the others, and then exactly one membership line:
`type <Name> interface { <names> }` with the exported method names sorted ascending and
joined by `, ` when there is an exported method, `type <Name> interface {}` when there is
none. -/
theorem formatObj_interface (ts : GoType → String) (und : TypeName → GoType) (p : printer)
    (o : Object) (typ : GoType) (methods : List Func) (sigs : List String)
    (hk : o.kind = .TypeName typ) (hu : typ.Underlying und = .Interface methods)
    (hs : List.Forall₂ (fun f s => p.formatSignature ts f.sig = some s)
      (methods.filter fun f => f.exported) sigs) :
    p.formatObj ts und o =
      some {
        lines := p.lines ++
          List.zipWith (fun f s => "type " ++ o.name ++ " interface, " ++ f.name ++ s)
            (methods.filter fun f => f.exported) sigs ++
          [if (methods.filter fun f => f.exported).length = 0 then
              "type " ++ o.name ++ " interface \x7b\x7d"
            else
              "type " ++ o.name ++ " interface \x7b " ++
                join (sortStrings ((methods.filter fun f => f.exported).map fun f => f.name))
                  ", " ++ " \x7d"],
        pkgPath := p.pkgPath } := by
  have hs' : List.Forall₂
      (fun f s => (emptyPrinter p.pkgPath).formatSignature ts f.sig = some s)
      (methods.filter fun f => f.exported) sigs :=
    hs.imp fun {f s} h => by rw [← formatSignature_emptyPrinter]; exact h
  unfold printer.formatObj
  rw [hk]
  simp only [hu, interfaceMethods_eq, interfaceMethodLines_eq ts p.pkgPath o.name methods sigs hs',
    Option.map_some', List.nil_append, printer.printf, List.length_map]
  split <;> simp

theorem formatObj_interface_witness :
    (emptyPrinter "p").formatObj testTypeString (fun _ => .Interface readCloseMethods) declFoo =
      some {
        lines := (emptyPrinter "p").lines ++
          List.zipWith (fun f s => "type " ++ declFoo.name ++ " interface, " ++ f.name ++ s)
            (readCloseMethods.filter fun f => f.exported)
            ["([]uint8) (int, error)", "() error"] ++
          [if (readCloseMethods.filter fun f => f.exported).length = 0 then
              "type " ++ declFoo.name ++ " interface \x7b\x7d"
            else
              "type " ++ declFoo.name ++ " interface \x7b " ++
                join (sortStrings
                  ((readCloseMethods.filter fun f => f.exported).map fun f => f.name))
                  ", " ++ " \x7d"],
        pkgPath := (emptyPrinter "p").pkgPath } :=
  formatObj_interface testTypeString (fun _ => .Interface readCloseMethods) (emptyPrinter "p")
    declFoo (.Named nameFoo) readCloseMethods ["([]uint8) (int, error)", "() error"] rfl rfl
    (List.Forall₂.cons (by decide) (List.Forall₂.cons (by decide) List.Forall₂.nil))

theorem declFoo_lines :
    (emptyPrinter "p").formatObj testTypeString (fun _ => .Interface readCloseMethods) declFoo =
      some {
        lines := ["type Foo interface, Read([]uint8) (int, error)",
          "type Foo interface, Close() error", "type Foo interface \x7b Close, Read \x7d"],
        pkgPath := "p" } := by
  decide

/-! ## Named types and vendored paths -/

theorem packagePath_of_no_occurrence (pkg : Package)
    (h : ∀ j, ¬ OccursAt vendor.data pkg.path.data j) : packagePath pkg = pkg.path := by
  unfold packagePath lastIndex
  simp only []
  rcases lastIndexFrom_spec pkg.path.data vendor.data (pkg.path.length - vendor.length) with
    ⟨h1, _⟩ | ⟨i, _, _, h2, _⟩
  · simp [h1]
  · exact absurd h2 (h i)

theorem packagePath_of_last (pkg : Package) (pre r : List Char)
    (hs : pkg.path.data = pre ++ vendor.data ++ r)
    (hlast : ∀ j, OccursAt vendor.data pkg.path.data j → j ≤ pre.length) :
    packagePath pkg = ⟨r⟩ := by
  have hv : vendor.data ≠ [] := by decide
  have ho : OccursAt vendor.data pkg.path.data pre.length := by
    rw [hs]; exact occursAt_of_append _ _ _
  unfold packagePath lastIndex
  simp only []
  rcases lastIndexFrom_spec pkg.path.data vendor.data (pkg.path.length - vendor.length) with
    ⟨_, h2⟩ | ⟨i, hi, h1, h2, h3⟩
  · exact absurd ho (h2 _ (occursAt_le _ _ _ hv ho))
  · have hle : i ≤ pre.length := hlast i h2
    have hge : pre.length ≤ i := by
      by_contra hcon
      exact h3 _ (by omega) (occursAt_le _ _ _ hv ho) ho
    have hi' : i = pre.length := by omega
    have hneg : ¬ ((i : Int) < 0) := by omega
    rw [h1, if_neg hneg]
    apply String.ext
    simp only [sliceFrom]
    have : ((i : Int) + (vendor.length : Int)).toNat = pre.length + vendor.data.length := by
      have : vendor.length = vendor.data.length := rfl
      omega
    rw [this, hs, List.append_assoc, ← List.drop_drop, List.drop_left, List.drop_left]

theorem occursAt_shift (sub a s : List Char) (j : Nat) :
    OccursAt sub (a ++ s) (a.length + j) ↔ OccursAt sub s j := by
  unfold OccursAt
  rw [← List.drop_drop, List.drop_left]

theorem packagePath_vendored (x q : String) (s1 s2 : Nat)
    (hq : ¬ "vendor/".data <+: q.data) :
    packagePath { path := x ++ "/vendor/" ++ q, scope := s1 } =
      packagePath { path := q, scope := s2 } := by
  have hv : vendor.data ≠ [] := by decide
  have hvd : vendor.data = ['/', 'v', 'e', 'n', 'd', 'o', 'r', '/'] := rfl
  have hpath : (x ++ "/vendor/" ++ q).data = x.data ++ vendor.data ++ q.data := by
    simp only [String.data_append]; rfl
  -- occurrences in the long path that start after `x` lie inside `q`
  have hin : ∀ j, x.data.length < j → OccursAt vendor.data (x.data ++ vendor.data ++ q.data) j →
      ∃ k, j = x.data.length + vendor.data.length + k ∧ OccursAt vendor.data q.data k := by
    intro j hj ho
    by_cases hk : x.data.length + vendor.data.length ≤ j
    · obtain ⟨k, rfl⟩ := Nat.exists_eq_add_of_le hk
      refine ⟨k, rfl, ?_⟩
      have := ho
      rw [← List.length_append] at this
      exact (occursAt_shift _ _ _ _).mp this
    · exfalso
      obtain ⟨k, rfl⟩ := Nat.exists_eq_add_of_le (Nat.le_of_lt hj)
      rw [List.append_assoc, occursAt_shift] at ho
      have hk7 : k < 8 := by
        have : vendor.data.length = 8 := rfl
        omega
      have hk0 : 0 < k := by omega
      unfold OccursAt at ho
      rw [hvd] at ho
      interval_cases k <;> simp at ho
      exact hq (by simpa using ho)
  rcases lastIndexFrom_spec q.data vendor.data (q.length - vendor.length) with
    ⟨_, h2⟩ | ⟨i, hi, _, h2, h3⟩
  · -- no occurrence inside `q`
    have hnone : ∀ j, ¬ OccursAt vendor.data q.data j := fun j ho =>
      h2 j (occursAt_le _ _ _ hv ho) ho
    rw [packagePath_of_no_occurrence { path := q, scope := s2 } hnone]
    rw [packagePath_of_last { path := x ++ "/vendor/" ++ q, scope := s1 } x.data q.data hpath]
    intro j ho
    by_contra hcon
    rw [hpath] at ho
    obtain ⟨k, _, hk⟩ := hin j (by omega) ho
    exact hnone k hk
  · -- the last occurrence inside `q` is at `i`
    have hlen : i ≤ q.data.length := by
      have : q.length = q.data.length := rfl
      omega
    obtain ⟨hs, hl⟩ := occursAt_split _ _ i h2 hlen
    have hlastq : ∀ j, OccursAt vendor.data q.data j → j ≤ i := by
      intro j ho
      by_contra hcon
      exact h3 j (by omega) (occursAt_le _ _ _ hv ho) ho
    rw [packagePath_of_last { path := q, scope := s2 } (q.data.take i)
      (q.data.drop (i + vendor.data.length)) hs (by intro j ho; rw [hl]; exact hlastq j ho)]
    rw [packagePath_of_last { path := x ++ "/vendor/" ++ q, scope := s1 }
      (x.data ++ vendor.data ++ q.data.take i) (q.data.drop (i + vendor.data.length))]
    · rw [hpath]
      conv_lhs => rw [hs]
      simp only [List.append_assoc]
    · intro j ho
      rw [hpath] at ho
      by_contra hcon
      simp only [List.length_append, hl] at hcon
      obtain ⟨k, hk1, hk2⟩ := hin j (by omega) ho
      have := hlastq k hk2
      omega

theorem formatType_named (ts : GoType → String) (cur : Package) (lines : List String)
    (obj : TypeName) :
    printer.formatType ts { lines := lines, pkgPath := packagePath cur } (.Named obj) =
      some (specNamed cur obj) := by
  unfold specNamed
  rw [printer.formatType.eq_def]
  simp only []
  cases obj.pkg with
  | none => rfl
  | some owner =>
    simp only []
    split <;> rfl

/-- C8 (as stated, refuted): the named types `T` of the packages `vendor/b` and
`x/vendor/vendor/b` differ only in the prefix `x/vendor/` of their owning package path, yet in
package `p` the first renders as `vendor/b.T` and the second as `b.T`. -/
theorem formatType_named_vendor_prefix_counterexample :
    ("x/vendor/vendor/b" : String) = "x" ++ "/vendor/" ++ "vendor/b" ∧
    printer.formatType testTypeString { lines := [], pkgPath := packagePath testPkg }
        (.Named { pkg := some { path := "vendor/b", scope := 1 }, name := "T",
                  exported := true }) = some "vendor/b.T" ∧
    printer.formatType testTypeString { lines := [], pkgPath := packagePath testPkg }
        (.Named { pkg := some { path := "x/vendor/vendor/b", scope := 2 }, name := "T",
                  exported := true }) = some "b.T" := by
  decide

/-- C8 (amended): in the printer of package `cur`, `formatType` renders a named type as
the bare name when it has no owning package or the de-vendored path of its owning package
equals the de-vendored path of `cur`, and as `<de-vendored owning package path>.<Name>`
otherwise. Consequently two named types of the same name whose owning package paths are `q`
and `x ++ "/vendor/" ++ q` render identically, provided `q` does not itself begin with
`vendor/`. -/
theorem formatType_named_devendored (ts : GoType → String) (cur : Package)
    (lines : List String) (obj : TypeName) (x q name : String) (s1 s2 : Nat) (e1 e2 : Bool)
    (hq : ¬ "vendor/".data <+: q.data) :
    printer.formatType ts { lines := lines, pkgPath := packagePath cur } (.Named obj) =
      some (match obj.pkg with
        | none => obj.name
        | some owner =>
          if packagePath owner = packagePath cur then obj.name
          else packagePath owner ++ "." ++ obj.name) ∧
    printer.formatType ts { lines := lines, pkgPath := packagePath cur }
        (.Named { pkg := some { path := x ++ "/vendor/" ++ q, scope := s1 }, name := name,
                  exported := e1 }) =
      printer.formatType ts { lines := lines, pkgPath := packagePath cur }
        (.Named { pkg := some { path := q, scope := s2 }, name := name, exported := e2 }) := by
  refine ⟨formatType_named ts cur lines obj, ?_⟩
  rw [formatType_named, formatType_named]
  simp only [specNamed, packagePath_vendored x q s1 s2 hq]

theorem formatType_named_devendored_witness :
    printer.formatType testTypeString
        { lines := [], pkgPath := packagePath { path := "a/b", scope := 0 } }
        (.Named { pkg := some { path := "net/http", scope := 3 }, name := "Client",
                  exported := true }) =
      some (match (some { path := "net/http", scope := 3 } : Option Package) with
        | none => "Client"
        | some owner =>
          if packagePath owner = packagePath { path := "a/b", scope := 0 } then "Client"
          else packagePath owner ++ "." ++ "Client") ∧
    printer.formatType testTypeString
        { lines := [], pkgPath := packagePath { path := "a/b", scope := 0 } }
        (.Named { pkg := some { path := "x" ++ "/vendor/" ++ "a/b", scope := 1 }, name := "T",
                  exported := true }) =
      printer.formatType testTypeString
        { lines := [], pkgPath := packagePath { path := "a/b", scope := 0 } }
        (.Named { pkg := some { path := "a/b", scope := 0 }, name := "T", exported := true }) :=
  formatType_named_devendored testTypeString { path := "a/b", scope := 0 } []
    { pkg := some { path := "net/http", scope := 3 }, name := "Client", exported := true }
    "x" "a/b" "T" 1 0 true true (by decide)

theorem formatType_named_examples :
    printer.formatType testTypeString
        { lines := [], pkgPath := packagePath { path := "a/b", scope := 0 } }
        (.Named { pkg := some { path := "x/vendor/a/b", scope := 1 }, name := "T",
                  exported := true }) = some "T" ∧
    printer.formatType testTypeString { lines := [], pkgPath := packagePath testPkg }
        (.Named { pkg := some { path := "net/http", scope := 3 }, name := "Client",
                  exported := true }) = some "net/http.Client" ∧
    printer.formatType testTypeString { lines := [], pkgPath := packagePath testPkg }
        (.Named { pkg := none, name := "error", exported := false }) = some "error" := by
  decide

/-! ## Reading a type back from its rendering -/

theorem isPlainSig_eq (p : printer) (r : Option Var) (ps rs : Option (List Var)) (v : Bool) :
    isPlainSig p (.mk r ps rs v) =
      ((!v || !(ps.getD []).isEmpty) && isPlainVars p (ps.getD []) &&
        isPlainVars p (rs.getD [])) := by
  cases ps <;> cases rs <;> simp [isPlainSig, isPlainVars]

theorem canonSig_eq (p : printer) (r : Option Var) (ps rs : Option (List Var)) (v : Bool) :
    canonSig p (.mk r ps rs v) =
      .mk none (some (canonVars p (ps.getD []))) (some (canonVars p (rs.getD []))) v := by
  cases ps <;> cases rs <;> simp [canonSig, canonVars]

theorem isPlainVars_cons (p : printer) (v : Var) (rest : List Var) :
    isPlainVars p (v :: rest) = (isPlain p v.typ && isPlainVars p rest) := by
  obtain ⟨n, x, t⟩ := v
  simp [isPlainVars, Var.typ]

theorem canonVars_cons (p : printer) (v : Var) (rest : List Var) :
    canonVars p (v :: rest) = .mk "" false (canonType p v.typ) :: canonVars p rest := by
  obtain ⟨n, x, t⟩ := v
  simp [canonVars, Var.typ]

theorem Follow.delimStart {f : List Char} (h : Follow f) : DelimStart f := by
  rcases h with h | ⟨c, rest, h, hc⟩
  · exact Or.inl h
  · refine Or.inr ⟨c, rest, h, ?_⟩
    rcases hc with rfl | rfl | rfl <;> rfl

theorem split_unique : ∀ (t t' f g : List Char),
    (∀ c ∈ t, isDelim c = false) → (∀ c ∈ t', isDelim c = false) →
    DelimStart f → DelimStart g → t ++ f = t' ++ g → t = t' ∧ f = g
  | [], [], f, g, _, _, _, _, h => ⟨rfl, by simpa using h⟩
  | [], c :: t', f, g, _, h2, hf, _, h => by
    exfalso
    have hc := h2 c (by simp)
    rcases hf with rfl | ⟨d, rest, rfl, hd⟩
    · simp at h
    · simp only [List.nil_append, List.cons_append, List.cons.injEq] at h
      rw [h.1, hc] at hd
      exact Bool.noConfusion hd
  | c :: t, [], f, g, h1, _, _, hg, h => by
    exfalso
    have hc := h1 c (by simp)
    rcases hg with rfl | ⟨d, rest, rfl, hd⟩
    · simp at h
    · simp only [List.nil_append, List.cons_append, List.cons.injEq] at h
      rw [← h.1, hc] at hd
      exact Bool.noConfusion hd
  | c :: t, d :: t', f, g, h1, h2, hf, hg, h => by
    simp only [List.cons_append, List.cons.injEq] at h
    obtain ⟨h3, h4⟩ := split_unique t t' f g (fun x hx => h1 x (by simp [hx]))
      (fun x hx => h2 x (by simp [hx])) hf hg h.2
    exact ⟨by rw [h.1, h3], h4⟩

/-! ### Decimal numerals -/

theorem digitChar_lt_ten (k : Nat) (h : k < 10) :
    (Nat.digitChar k).toNat - 48 = k ∧ isDelim (Nat.digitChar k) = false ∧
      Nat.digitChar k ≠ '-' := by
  interval_cases k <;> decide

theorem toDigitsCore_spec (fuel : Nat) : ∀ (n : Nat) (ds : List Char), n < fuel →
    ∃ l, Nat.toDigitsCore 10 fuel n ds = l ++ ds ∧ l ≠ [] ∧ decimalValue l = n ∧
      (∀ c ∈ l, isDelim c = false ∧ c ≠ '-') := by
  induction fuel with
  | zero => intro n ds h; omega
  | succ fuel ih =>
    intro n ds h
    have hd := digitChar_lt_ten (n % 10) (Nat.mod_lt _ (by decide))
    unfold Nat.toDigitsCore
    by_cases h0 : n / 10 = 0
    · refine ⟨[Nat.digitChar (n % 10)], by simp [h0], by simp, ?_, ?_⟩
      · simp only [decimalValue, List.foldl_cons, List.foldl_nil, hd.1]
        omega
      · intro c hc
        simp only [List.mem_singleton] at hc
        rw [hc]; exact hd.2
    · obtain ⟨l, h1, h2, h3, h4⟩ := ih (n / 10) (Nat.digitChar (n % 10) :: ds) (by omega)
      refine ⟨l ++ [Nat.digitChar (n % 10)], by simp [h0, h1], by simp, ?_, ?_⟩
      · unfold decimalValue at *
        rw [List.foldl_append, h3]
        simp only [List.foldl_cons, List.foldl_nil, hd.1]
        omega
      · intro c hc
        rcases List.mem_append.mp hc with hc | hc
        · exact h4 c hc
        · simp only [List.mem_singleton] at hc
          rw [hc]; exact hd.2

theorem nat_repr_spec (n : Nat) :
    (Nat.repr n).data ≠ [] ∧ decimalValue (Nat.repr n).data = n ∧
      (∀ c ∈ (Nat.repr n).data, isDelim c = false ∧ c ≠ '-') := by
  obtain ⟨l, h1, h2, h3, h4⟩ := toDigitsCore_spec (n + 1) n [] (by omega)
  have : (Nat.repr n).data = l := by
    simp [Nat.repr, Nat.toDigits, h1, List.asString]
  rw [this]
  exact ⟨h2, h3, h4⟩

theorem int_toString_cases (n : Int) :
    (∃ m : Nat, n = Int.ofNat m ∧ (toString n).data = (Nat.repr m).data) ∨
    (∃ m : Nat, n = Int.negSucc m ∧ (toString n).data = '-' :: (Nat.repr (m + 1)).data) := by
  cases n with
  | ofNat m => exact Or.inl ⟨m, rfl, rfl⟩
  | negSucc m => exact Or.inr ⟨m, rfl, rfl⟩

theorem int_toString_clean (n : Int) :
    (toString n).data ≠ [] ∧ ∀ c ∈ (toString n).data, isDelim c = false := by
  rcases int_toString_cases n with ⟨m, _, h⟩ | ⟨m, _, h⟩
  · rw [h]
    exact ⟨(nat_repr_spec m).1, fun c hc => ((nat_repr_spec m).2.2 c hc).1⟩
  · rw [h]
    refine ⟨by simp, ?_⟩
    intro c hc
    rcases List.mem_cons.mp hc with rfl | hc
    · rfl
    · exact ((nat_repr_spec (m + 1)).2.2 c hc).1

theorem int_toString_injective (n m : Int) (h : (toString n).data = (toString m).data) :
    n = m := by
  rcases int_toString_cases n with ⟨a, rfl, ha⟩ | ⟨a, rfl, ha⟩ <;>
    rcases int_toString_cases m with ⟨b, rfl, hb⟩ | ⟨b, rfl, hb⟩
  · rw [ha, hb] at h
    have := congrArg decimalValue h
    rw [(nat_repr_spec a).2.1, (nat_repr_spec b).2.1] at this
    rw [this]
  · exfalso
    rw [ha, hb] at h
    have h1 := (nat_repr_spec a).2.2 '-' (by rw [h]; simp)
    exact h1.2 rfl
  · exfalso
    rw [ha, hb] at h
    have h1 := (nat_repr_spec b).2.2 '-' (by rw [← h]; simp)
    exact h1.2 rfl
  · rw [ha, hb] at h
    simp only [List.cons.injEq, true_and] at h
    have := congrArg decimalValue h
    rw [(nat_repr_spec (a + 1)).2.1, (nat_repr_spec (b + 1)).2.1] at this
    have : a = b := by omega
    rw [this]

/-! ### The first characters of a rendering -/

theorem cleanToken_spec {t : List Char} (h : cleanToken t = true) :
    (∃ c rest, t = c :: rest ∧ isDelim c = false ∧ c ≠ '.') ∧ ∀ c ∈ t, isDelim c = false := by
  unfold cleanToken at h
  cases t with
  | nil => simp at h
  | cons c rest =>
    simp only [List.isEmpty_cons, Bool.not_false, Bool.true_and, Bool.and_eq_true,
      List.all_eq_true, Bool.not_eq_true', List.head?_cons, bne_iff_ne, ne_eq,
      Option.some.injEq] at h
    exact ⟨⟨c, rest, rfl, h.1 c (by simp), h.2⟩, h.1⟩

theorem formatType_named_eq (ts : GoType → String) (p : printer) (obj : TypeName) :
    p.formatType ts (.Named obj) = some (namedText p obj) := by
  unfold namedText
  rw [printer.formatType.eq_def]
  simp only []
  cases obj.pkg with
  | none => rfl
  | some owner =>
    simp only []
    split <;> rfl

theorem formatType_basic_eq (ts : GoType → String) (p : printer) (name : String) :
    p.formatType ts (.Basic name) = some name := by
  simp [printer.formatType]

theorem leaf_spec (ts : GoType → String) (p : printer) (t : GoType) (s : String)
    (hl : isLeaf t = true) (hp : isPlain p t = true) (hs : p.formatType ts t = some s) :
    cleanToken s.data = true ∧ canonType p t = .Basic s := by
  cases t with
  | Basic n =>
    rw [formatType_basic_eq] at hs
    cases hs
    exact ⟨by simpa [isPlain] using hp, by simp [canonType]⟩
  | Named o =>
    rw [formatType_named_eq] at hs
    cases hs
    exact ⟨by simpa [isPlain] using hp, by simp [canonType]⟩
  | _ => simp [isLeaf] at hl

theorem formatSignature_head (ts : GoType → String) (p : printer) (sig : Signature)
    (s : String) (h : p.formatSignature ts sig = some s) : ∃ rest, s.data = '(' :: rest := by
  obtain ⟨r, ps, rs, v⟩ := sig
  rw [formatSignature_eq] at h
  cases h1 : paramsText ts p v ps with
  | none => simp [h1] at h
  | some a =>
    cases h2 : resultsText ts p rs with
    | none => simp [h1, h2] at h
    | some b =>
      simp only [h1, h2, Option.some_bind, Option.map_some', Option.some.injEq] at h
      exact ⟨a.data ++ ')' :: b.data, by rw [← h]; simp⟩

theorem nonleaf_shape (ts : GoType → String) (p : printer) (t : GoType) (s : String)
    (hl : isLeaf t = false) (hp : isPlain p t = true) (hs : p.formatType ts t = some s) :
    ∃ w d rest, s.data = w ++ d :: rest ∧ (∀ c ∈ w, isDelim c = false) ∧
      isDelim d = true ∧ d ≠ ']' ∧ d ≠ ',' ∧ d ≠ ')' := by
  cases t with
  | Basic n => simp [isLeaf] at hl
  | Named o => simp [isLeaf] at hl
  | Struct f => simp [isPlain] at hp
  | Interface m => simp [isPlain] at hp
  | Tuple l => simp [isPlain] at hp
  | Pointer e =>
    simp only [printer.formatType, Option.map_eq_some'] at hs
    obtain ⟨s2, _, rfl⟩ := hs
    exact ⟨[], '*', s2.data, by simp, by simp, by decide, by decide, by decide, by decide⟩
  | Slice e =>
    simp only [printer.formatType, Option.map_eq_some'] at hs
    obtain ⟨s2, _, rfl⟩ := hs
    exact ⟨[], '[', ']' :: s2.data, by simp, by simp, by decide, by decide, by decide,
      by decide⟩
  | Array n e =>
    simp only [printer.formatType, Option.map_eq_some'] at hs
    obtain ⟨s2, _, rfl⟩ := hs
    exact ⟨[], '[', (toString n).data ++ ']' :: s2.data, by simp, by simp, by decide,
      by decide, by decide, by decide⟩
  | Signature sig =>
    simp only [printer.formatType, Option.map_eq_some'] at hs
    obtain ⟨s2, h2, rfl⟩ := hs
    obtain ⟨rest, hr⟩ := formatSignature_head ts p sig s2 h2
    refine ⟨['f', 'u', 'n', 'c'], '(', rest, by simp [hr], ?_, by decide, by decide,
      by decide, by decide⟩
    intro c hc
    simp only [List.mem_cons, List.mem_singleton, List.not_mem_nil, or_false] at hc
    rcases hc with rfl | rfl | rfl | rfl <;> rfl
  | Map k e =>
    simp only [printer.formatType, Option.bind_eq_some, Option.map_eq_some'] at hs
    obtain ⟨s1, _, s2, _, rfl⟩ := hs
    refine ⟨['m', 'a', 'p'], '[', s1.data ++ ']' :: s2.data, by simp, ?_, by decide,
      by decide, by decide, by decide⟩
    intro c hc
    simp only [List.mem_cons, List.mem_singleton, List.not_mem_nil, or_false] at hc
    rcases hc with rfl | rfl | rfl <;> rfl
  | Chan d e =>
    cases d with
    | SendRecv =>
      simp only [printer.formatType, Option.map_eq_some'] at hs
      obtain ⟨s2, _, rfl⟩ := hs
      refine ⟨['c', 'h', 'a', 'n'], ' ', s2.data, by simp, ?_, by decide, by decide,
        by decide, by decide⟩
      intro c hc
      simp only [List.mem_cons, List.mem_singleton, List.not_mem_nil, or_false] at hc
      rcases hc with rfl | rfl | rfl | rfl <;> rfl
    | SendOnly =>
      simp only [printer.formatType, Option.map_eq_some'] at hs
      obtain ⟨s2, _, rfl⟩ := hs
      refine ⟨['c', 'h', 'a', 'n'], ' ', '<' :: '-' :: ' ' :: s2.data, by simp, ?_,
        by decide, by decide, by decide, by decide⟩
      intro c hc
      simp only [List.mem_cons, List.mem_singleton, List.not_mem_nil, or_false] at hc
      rcases hc with rfl | rfl | rfl | rfl <;> rfl
    | RecvOnly =>
      simp only [printer.formatType, Option.map_eq_some'] at hs
      obtain ⟨s2, _, rfl⟩ := hs
      exact ⟨[], '<', '-' :: ' ' :: 'c' :: 'h' :: 'a' :: 'n' :: ' ' :: s2.data, by simp,
        by simp, by decide, by decide, by decide, by decide⟩

theorem isLeaf_or (t : GoType) : isLeaf t = true ∨ isLeaf t = false := by
  cases isLeaf t <;> simp

theorem leaf_vs_nonleaf (ts : GoType → String) (p : printer) (a b : GoType) (s s' : String)
    (f g : List Char) (hla : isLeaf a = true) (hlb : isLeaf b = false)
    (hpa : isPlain p a = true) (hpb : isPlain p b = true)
    (hsa : p.formatType ts a = some s) (hsb : p.formatType ts b = some s')
    (hf : Follow f) : s.data ++ f ≠ s'.data ++ g := by
  intro h
  obtain ⟨w, d, rest, h1, h2, h3, h4, h5, h6⟩ := nonleaf_shape ts p b s' hlb hpb hsb
  have hc := (cleanToken_spec (leaf_spec ts p a s hla hpa hsa).1).2
  rw [h1, List.append_assoc, List.cons_append] at h
  obtain ⟨_, hfg⟩ := split_unique _ _ _ _ hc h2 hf.delimStart
    (Or.inr ⟨d, rest ++ g, rfl, h3⟩) h
  rcases hf with rfl | ⟨c, r, rfl, hc⟩
  · simp at hfg
  · simp only [List.cons.injEq] at hfg
    rcases hc with rfl | rfl | rfl
    · exact h4 hfg.1.symm
    · exact h5 hfg.1.symm
    · exact h6 hfg.1.symm

/-- Every rendering of a plain type starts with a character that is neither a dot, a closing
bracket, a comma, a space nor a parenthesis, and with `<` only for a receive-only channel. -/
theorem render_head (ts : GoType → String) (p : printer) (t : GoType) (s : String)
    (hp : isPlain p t = true) (hs : p.formatType ts t = some s) :
    ∃ c rest, s.data = c :: rest ∧ headOK c = true ∧ (c = '<' → isRecvChan t = true) := by
  rcases isLeaf_or t with hl | hl
  · obtain ⟨⟨c, rest, h1, h2, h3⟩, _⟩ := cleanToken_spec (leaf_spec ts p t s hl hp hs).1
    refine ⟨c, rest, h1, ?_, ?_⟩
    · unfold headOK
      unfold isDelim at h2
      simp only [Bool.or_eq_false_iff, decide_eq_false_iff_not] at h2
      simp [h3, h2.1.1.1.1.1.1.1, h2.1.1.1.1.1.1.2, h2.1.1.1.1.1.2, h2.1.1.1.1.2, h2.1.1.2]
    · intro hc
      rw [hc] at h2
      exact absurd h2 (by decide)
  · cases t with
    | Basic n => simp [isLeaf] at hl
    | Named o => simp [isLeaf] at hl
    | Struct f => simp [isPlain] at hp
    | Interface m => simp [isPlain] at hp
    | Tuple l => simp [isPlain] at hp
    | Pointer e =>
      simp only [printer.formatType, Option.map_eq_some'] at hs
      obtain ⟨s2, _, rfl⟩ := hs
      exact ⟨'*', s2.data, by simp, by decide, fun h => absurd h (by decide)⟩
    | Slice e =>
      simp only [printer.formatType, Option.map_eq_some'] at hs
      obtain ⟨s2, _, rfl⟩ := hs
      exact ⟨'[', ']' :: s2.data, by simp, by decide, fun h => absurd h (by decide)⟩
    | Array n e =>
      simp only [printer.formatType, Option.map_eq_some'] at hs
      obtain ⟨s2, _, rfl⟩ := hs
      exact ⟨'[', (toString n).data ++ ']' :: s2.data, by simp, by decide, fun h => absurd h (by decide)⟩
    | Signature sig =>
      simp only [printer.formatType, Option.map_eq_some'] at hs
      obtain ⟨s2, h2, rfl⟩ := hs
      exact ⟨'f', 'u' :: 'n' :: 'c' :: s2.data, by simp, by decide, fun h => absurd h (by decide)⟩
    | Map k e =>
      simp only [printer.formatType, Option.bind_eq_some, Option.map_eq_some'] at hs
      obtain ⟨s1, _, s2, _, rfl⟩ := hs
      exact ⟨'m', 'a' :: 'p' :: '[' :: (s1.data ++ ']' :: s2.data), by simp, by decide,
        fun h => absurd h (by decide)⟩
    | Chan d e =>
      cases d with
      | SendRecv =>
        simp only [printer.formatType, Option.map_eq_some'] at hs
        obtain ⟨s2, _, rfl⟩ := hs
        exact ⟨'c', 'h' :: 'a' :: 'n' :: ' ' :: s2.data, by simp, by decide, fun h => absurd h (by decide)⟩
      | SendOnly =>
        simp only [printer.formatType, Option.map_eq_some'] at hs
        obtain ⟨s2, _, rfl⟩ := hs
        exact ⟨'c', 'h' :: 'a' :: 'n' :: ' ' :: '<' :: '-' :: ' ' :: s2.data, by simp,
          by decide, fun h => absurd h (by decide)⟩
      | RecvOnly =>
        simp only [printer.formatType, Option.map_eq_some'] at hs
        obtain ⟨s2, _, rfl⟩ := hs
        exact ⟨'<', '-' :: ' ' :: 'c' :: 'h' :: 'a' :: 'n' :: ' ' :: s2.data, by simp,
          by decide, fun _ => rfl⟩

theorem prefix_of (ts : GoType → String) (p : printer) (t : GoType) (s : String)
    (hs : p.formatType ts t = some s) : ∃ rest, s.data = headOf t ++ rest := by
  cases t with
  | Pointer e =>
    simp only [printer.formatType, Option.map_eq_some'] at hs
    obtain ⟨s2, _, rfl⟩ := hs
    exact ⟨s2.data, by simp [headOf]⟩
  | Slice e =>
    simp only [printer.formatType, Option.map_eq_some'] at hs
    obtain ⟨s2, _, rfl⟩ := hs
    exact ⟨s2.data, by simp [headOf]⟩
  | Array n e =>
    simp only [printer.formatType, Option.map_eq_some'] at hs
    obtain ⟨s2, _, rfl⟩ := hs
    exact ⟨(toString n).data ++ ']' :: s2.data, by simp [headOf]⟩
  | Signature sig =>
    simp only [printer.formatType, Option.map_eq_some'] at hs
    obtain ⟨s2, h2, rfl⟩ := hs
    obtain ⟨rest, hr⟩ := formatSignature_head ts p sig s2 h2
    exact ⟨rest, by simp [headOf, hr]⟩
  | Map k e =>
    simp only [printer.formatType, Option.bind_eq_some, Option.map_eq_some'] at hs
    obtain ⟨s1, _, s2, _, rfl⟩ := hs
    exact ⟨s1.data ++ ']' :: s2.data, by simp [headOf]⟩
  | Chan d e =>
    cases d <;>
    · simp only [printer.formatType, Option.map_eq_some'] at hs
      obtain ⟨s2, _, rfl⟩ := hs
      exact ⟨s2.data, by simp [headOf]⟩
  | _ => exact ⟨s.data, by simp [headOf]⟩

theorem formatResults_eq_params (ts : GoType → String) (p : printer) (l : List Var) :
    ∀ first, p.formatResults ts first l = p.formatParams ts false first l := by
  induction l with
  | nil => intro first; rw [formatResults_nil, formatParams_nil]
  | cons v rest ih =>
    intro first
    rw [formatResults_cons, formatParams_cons, ih]
    simp [paramText]

theorem paramsText_getD (ts : GoType → String) (p : printer) (v : Bool)
    (ps : Option (List Var)) :
    paramsText ts p v ps = p.formatParams ts v true (ps.getD []) := by
  cases ps with
  | none => simp [paramsText, formatParams_nil]
  | some l => simp [paramsText]

theorem resultsText_cases (ts : GoType → String) (p : printer) (rs : Option (List Var))
    (b : String) (h : resultsText ts p rs = some b) :
    (rs.getD [] = [] ∧ b = "") ∨
    (∃ w s2, rs.getD [] = [w] ∧ p.formatType ts w.typ = some s2 ∧ b = " " ++ s2) ∨
    (∃ w1 w2 rest s2, rs.getD [] = w1 :: w2 :: rest ∧
      p.formatParams ts false true (w1 :: w2 :: rest) = some s2 ∧ b = " (" ++ s2 ++ ")") := by
  rcases rs with _ | (_ | ⟨w, (_ | ⟨w2, vars⟩)⟩)
  · left; simp [resultsText] at h; exact ⟨rfl, h.symm⟩
  · left; simp [resultsText] at h; exact ⟨rfl, h.symm⟩
  · right; left
    simp only [resultsText, Option.map_eq_some'] at h
    obtain ⟨s2, h2, rfl⟩ := h
    exact ⟨w, s2, rfl, h2, rfl⟩
  · right; right
    simp only [resultsText, Option.map_eq_some', formatResults_eq_params] at h
    obtain ⟨s2, h2, rfl⟩ := h
    exact ⟨w, w2, vars, s2, rfl, h2, rfl⟩

theorem paramText_head (ts : GoType → String) (p : printer) (flag : Bool) (t : GoType)
    (a : String) (hp : isPlain p t = true) (h : paramText ts p flag t = some a) :
    ∃ c rest, a.data = c :: rest ∧ c ≠ ')' ∧ c ≠ ',' := by
  cases flag with
  | false =>
    simp only [paramText] at h
    obtain ⟨c, rest, h1, h2, _⟩ := render_head ts p t a hp h
    refine ⟨c, rest, h1, ?_, ?_⟩ <;> (rintro rfl; exact absurd h2 (by decide))
  | true =>
    cases t with
    | Slice e =>
      simp only [paramText, Option.map_eq_some'] at h
      obtain ⟨s2, _, rfl⟩ := h
      exact ⟨'.', '.' :: '.' :: s2.data, by simp, by decide, by decide⟩
    | _ => simp [paramText] at h

theorem formatParams_tail_follow (ts : GoType → String) (p : printer) (v : Bool)
    (rest : List Var) (b : String) (x : List Char)
    (h : p.formatParams ts v false rest = some b) : Follow (b.data ++ ')' :: x) := by
  cases rest with
  | nil =>
    rw [formatParams_nil] at h
    cases h
    exact Or.inr ⟨')', x, by simp, Or.inr (Or.inr rfl)⟩
  | cons w rest =>
    rw [formatParams_cons] at h
    simp only [Option.bind_eq_some, Option.map_eq_some'] at h
    obtain ⟨a, _, b2, _, rfl⟩ := h
    exact Or.inr ⟨',', ' ' :: (a.data ++ b2.data ++ ')' :: x), by simp, Or.inr (Or.inl rfl)⟩

theorem canonVars_eq_nil (p : printer) (l : List Var) (h : canonVars p l = []) : l = [] := by
  cases l with
  | nil => rfl
  | cons v rest => rw [canonVars_cons] at h; cases h

theorem nil_eq_canonVars (p : printer) (l : List Var) (h : [] = canonVars p l) : l = [] :=
  canonVars_eq_nil p l h.symm

/-! ### Unique readability -/

theorem formatParams_cons_head (ts : GoType → String) (p : printer) (v first : Bool)
    (w : Var) (rest : List Var) (s : String) (x : List Char)
    (hs : p.formatParams ts v first (w :: rest) = some s)
    (hp : isPlainVars p (w :: rest) = true) :
    ∃ c r, s.data ++ ')' :: x = c :: r ∧ c ≠ ')' := by
  rw [formatParams_cons] at hs
  simp only [Option.bind_eq_some, Option.map_eq_some'] at hs
  obtain ⟨a, ha, b, _, rfl⟩ := hs
  rw [isPlainVars_cons, Bool.and_eq_true] at hp
  obtain ⟨c, r, h1, h2, _⟩ := paramText_head ts p _ _ a hp.1 ha
  cases first with
  | true => exact ⟨c, r ++ b.data ++ ')' :: x, by simp [h1], h2⟩
  | false => exact ⟨',', ' ' :: (a.data ++ b.data ++ ')' :: x), by simp, by decide⟩

theorem varsReadable_nil (ts : GoType → String) (p : printer) : VarsReadable ts p [] := by
  intro v first s hs _ l' v' s' hs' hp' x y heq
  rw [formatParams_nil] at hs
  cases hs
  cases l' with
  | nil =>
    rw [formatParams_nil] at hs'
    cases hs'
    exact ⟨rfl, fun h => absurd rfl h, by simpa using heq⟩
  | cons w rest =>
    exfalso
    obtain ⟨c, r, h1, h2⟩ := formatParams_cons_head ts p v' first w rest s' y hs' hp'
    rw [h1] at heq
    have he : ("" : String).data = [] := rfl
    simp only [he, List.nil_append, List.cons.injEq] at heq
    exact h2 heq.1.symm

theorem varsReadable_cons (ts : GoType → String) (p : printer) (w : Var) (rest : List Var)
    (iht : TypeReadable ts p w.typ)
    (ihs : ∀ e, w.typ = .Slice e → TypeReadable ts p e)
    (ihr : VarsReadable ts p rest) : VarsReadable ts p (w :: rest) := by
  intro v first s hs hp l' v' s' hs' hp' x y heq
  cases l' with
  | nil =>
    exfalso
    rw [formatParams_nil] at hs'
    cases hs'
    obtain ⟨c, r, h1, h2⟩ := formatParams_cons_head ts p v first w rest s x hs hp
    rw [h1] at heq
    have he : ("" : String).data = [] := rfl
    simp only [he, List.nil_append, List.cons.injEq] at heq
    exact h2 heq.1
  | cons w' rest' =>
    rw [formatParams_cons] at hs hs'
    simp only [Option.bind_eq_some, Option.map_eq_some'] at hs hs'
    obtain ⟨a, ha, b, hb, rfl⟩ := hs
    obtain ⟨a', ha', b', hb', rfl⟩ := hs'
    rw [isPlainVars_cons, Bool.and_eq_true] at hp hp'
    have hfb := formatParams_tail_follow ts p v rest b x hb
    have hfb' := formatParams_tail_follow ts p v' rest' b' y hb'
    have heq2 : a.data ++ (b.data ++ ')' :: x) = a'.data ++ (b'.data ++ ')' :: y) := by
      cases first <;> simpa [List.append_assoc] using heq
    rw [canonVars_cons, canonVars_cons]
    cases hfl : (v && rest.isEmpty) <;> cases hfl' : (v' && rest'.isEmpty)
    · -- neither is a variadic last parameter
      rw [hfl] at ha; rw [hfl'] at ha'
      simp only [paramText] at ha ha'
      obtain ⟨hc, htail⟩ := iht a ha hp.1 w'.typ a' ha' hp'.1 _ _ hfb hfb' heq2
      obtain ⟨hcr, hv, hxy⟩ := ihr v false b hb hp.2 rest' v' b' hb' hp'.2 x y htail
      refine ⟨by rw [hc, hcr], ?_, hxy⟩
      intro _
      by_cases hre : rest = []
      · have hre' : rest' = [] := by
          rw [hre] at hcr
          exact nil_eq_canonVars p rest' (by simpa [canonVars] using hcr)
        rw [hre] at hfl; rw [hre'] at hfl'
        simp only [List.isEmpty_nil, Bool.and_true] at hfl hfl'
        rw [hfl, hfl']
      · exact hv hre
    · -- the other ends with a variadic parameter
      exfalso
      rw [hfl] at ha; rw [hfl'] at ha'
      simp only [paramText] at ha
      obtain ⟨c, r, h1, h2, _⟩ := render_head ts p w.typ a hp.1 ha
      cases hw : w'.typ with
      | Slice e' =>
        rw [hw] at ha'
        simp only [paramText, Option.map_eq_some'] at ha'
        obtain ⟨s2, _, rfl⟩ := ha'
        rw [h1] at heq2
        simp only [String.data_append, List.cons_append, List.cons.injEq] at heq2
        have : c = '.' := heq2.1
        rw [this] at h2
        exact absurd h2 (by decide)
      | _ => rw [hw] at ha'; simp [paramText] at ha'
    · -- this one ends with a variadic parameter
      exfalso
      rw [hfl] at ha; rw [hfl'] at ha'
      simp only [paramText] at ha'
      obtain ⟨c, r, h1, h2, _⟩ := render_head ts p w'.typ a' hp'.1 ha'
      cases hw : w.typ with
      | Slice e =>
        rw [hw] at ha
        simp only [paramText, Option.map_eq_some'] at ha
        obtain ⟨s2, _, rfl⟩ := ha
        rw [h1] at heq2
        simp only [String.data_append, List.cons_append, List.cons.injEq] at heq2
        have : '.' = c := heq2.1
        rw [← this] at h2
        exact absurd h2 (by decide)
      | _ => rw [hw] at ha; simp [paramText] at ha
    · -- both end with a variadic parameter
      rw [hfl] at ha; rw [hfl'] at ha'
      simp only [Bool.and_eq_true, List.isEmpty_iff] at hfl hfl'
      obtain ⟨hv, hre⟩ := hfl
      obtain ⟨hv', hre'⟩ := hfl'
      subst hre hre'
      rw [formatParams_nil] at hb hb'
      cases hb; cases hb'
      cases hw : w.typ with
      | Slice e =>
        cases hw' : w'.typ with
        | Slice e' =>
          rw [hw] at ha hp; rw [hw'] at ha' hp'
          simp only [paramText, Option.map_eq_some'] at ha ha'
          obtain ⟨s2, h2, rfl⟩ := ha
          obtain ⟨s2', h2', rfl⟩ := ha'
          simp only [isPlain] at hp hp'
          have heq3 : s2.data ++ ')' :: x = s2'.data ++ ')' :: y := by
            simpa using heq2
          obtain ⟨hc, htail⟩ := ihs e hw s2 h2 hp.1 e' s2' h2' hp'.1 _ _
            (Or.inr ⟨')', x, rfl, Or.inr (Or.inr rfl)⟩)
            (Or.inr ⟨')', y, rfl, Or.inr (Or.inr rfl)⟩) heq3
          refine ⟨by simp [canonType, canonVars, hc], fun _ => by rw [hv, hv'], ?_⟩
          simpa using htail
        | _ => rw [hw'] at ha'; simp [paramText] at ha'
      | _ => rw [hw] at ha; simp [paramText] at ha

theorem follow_not_space {f : List Char} (hf : Follow f) (r : List Char) : f ≠ ' ' :: r := by
  rintro rfl
  rcases hf with h | ⟨c, rest, h, hc⟩
  · cases h
  · simp only [List.cons.injEq] at h
    rcases hc with rfl | rfl | rfl <;> exact absurd h.1 (by decide)

theorem sigReadable_mk (ts : GoType → String) (p : printer) (r : Option Var)
    (ps rs : Option (List Var)) (v : Bool)
    (hpl : VarsReadable ts p (ps.getD []))
    (hrl : VarsReadable ts p (rs.getD []))
    (hrt : ∀ w ∈ rs.getD [], TypeReadable ts p w.typ) :
    SigReadable ts p (.mk r ps rs v) := by
  intro s hs hp sig' s' hs' hp' f g hf hg heq
  obtain ⟨r', ps', rs', v'⟩ := sig'
  rw [formatSignature_eq] at hs hs'
  simp only [Option.bind_eq_some, Option.map_eq_some', paramsText_getD] at hs hs'
  obtain ⟨a, ha, b, hb, rfl⟩ := hs
  obtain ⟨a', ha', b', hb', rfl⟩ := hs'
  rw [isPlainSig_eq] at hp hp'
  simp only [Bool.and_eq_true, Bool.or_eq_true, Bool.not_eq_true'] at hp hp'
  obtain ⟨⟨hpv, hpp⟩, hpr⟩ := hp
  obtain ⟨⟨hpv', hpp'⟩, hpr'⟩ := hp'
  have heq2 : a.data ++ ')' :: (b.data ++ f) = a'.data ++ ')' :: (b'.data ++ g) := by
    simpa [List.append_assoc] using heq
  obtain ⟨hcp, hvv, htail⟩ := hpl v true a ha hpp (ps'.getD []) v' a' ha' hpp' _ _ heq2
  have hv : v = v' := by
    by_cases hne : ps.getD [] = []
    · have hne' : ps'.getD [] = [] := by
        rw [hne] at hcp
        exact nil_eq_canonVars p _ (by simpa [canonVars] using hcp)
      rw [hne] at hpv; rw [hne'] at hpv'
      simp only [List.isEmpty_nil, Bool.true_eq_false, or_false] at hpv hpv'
      rw [hpv, hpv']
    · exact hvv hne
  rw [canonSig_eq, canonSig_eq, hcp, hv]
  rcases resultsText_cases ts p rs b hb with ⟨h1, rfl⟩ | ⟨w, s2, h1, h2, rfl⟩ |
      ⟨w1, w2, rest, s2, h1, h2, rfl⟩ <;>
    rcases resultsText_cases ts p rs' b' hb' with ⟨h1', rfl⟩ | ⟨w', s2', h1', h2', rfl⟩ |
      ⟨w1', w2', rest', s2', h1', h2', rfl⟩
  · rw [h1, h1']
    exact ⟨rfl, by simpa using htail⟩
  · exfalso
    exact follow_not_space hf (s2'.data ++ g) (by simpa using htail)
  · exfalso
    exact follow_not_space hf ('(' :: (s2'.data ++ ')' :: g)) (by simpa using htail)
  · exfalso
    exact follow_not_space hg (s2.data ++ f) (by simpa using htail.symm)
  · rw [h1] at hrt hpr; rw [h1'] at hpr'
    rw [isPlainVars_cons, Bool.and_eq_true] at hpr hpr'
    have heq3 : s2.data ++ f = s2'.data ++ g := by simpa using htail
    obtain ⟨hc, hfg⟩ := hrt w (by simp) s2 h2 hpr.1 w'.typ s2' h2' hpr'.1 f g hf hg heq3
    rw [h1, h1']
    exact ⟨by simp [canonVars_cons, canonVars, hc], hfg⟩
  · exfalso
    rw [h1] at hpr
    rw [isPlainVars_cons, Bool.and_eq_true] at hpr
    obtain ⟨c, rr, h3, h4, _⟩ := render_head ts p w.typ s2 hpr.1 h2
    have hd : (" " : String).data = [' '] := rfl
    have hd2 : (" (" : String).data = [' ', '('] := rfl
    simp only [String.data_append, h3, hd, hd2, List.append_assoc, List.cons_append,
      List.nil_append, List.cons.injEq, true_and] at htail
    rw [htail.1] at h4
    exact absurd h4 (by decide)
  · exfalso
    exact follow_not_space hg ('(' :: (s2.data ++ ')' :: f)) (by simpa using htail.symm)
  · exfalso
    rw [h1'] at hpr'
    rw [isPlainVars_cons, Bool.and_eq_true] at hpr'
    obtain ⟨c, rr, h3, h4, _⟩ := render_head ts p w'.typ s2' hpr'.1 h2'
    have hd : (" " : String).data = [' '] := rfl
    have hd2 : (" (" : String).data = [' ', '('] := rfl
    simp only [String.data_append, h3, hd, hd2, List.append_assoc, List.cons_append,
      List.nil_append, List.cons.injEq, true_and] at htail
    rw [← htail.1] at h4
    exact absurd h4 (by decide)
  · rw [h1] at hrl hpr; rw [h1'] at hpr'
    have heq3 : s2.data ++ ')' :: f = s2'.data ++ ')' :: g := by simpa using htail
    obtain ⟨hc, _, hfg⟩ := hrl false true s2 h2 hpr (w1' :: w2' :: rest') false s2' h2' hpr'
      f g heq3
    rw [h1, h1']
    exact ⟨by rw [hc], hfg⟩

theorem typeReadable_leaf (ts : GoType → String) (p : printer) (a : GoType)
    (hl : isLeaf a = true) : TypeReadable ts p a := by
  intro s hs hp b s' hs' hp' f g hf hg heq
  rcases isLeaf_or b with hlb | hlb
  · obtain ⟨h1, h2⟩ := leaf_spec ts p a s hl hp hs
    obtain ⟨h1', h2'⟩ := leaf_spec ts p b s' hlb hp' hs'
    obtain ⟨hss, hfg⟩ := split_unique _ _ _ _ (cleanToken_spec h1).2 (cleanToken_spec h1').2
      hf.delimStart hg.delimStart heq
    rw [h2, h2', String.ext hss]
    exact ⟨rfl, hfg⟩
  · exact absurd heq (leaf_vs_nonleaf ts p a b s s' f g hl hlb hp hp' hs hs' hf)

theorem typeReadable_pointer (ts : GoType → String) (p : printer) (e : GoType)
    (ih : TypeReadable ts p e) : TypeReadable ts p (.Pointer e) := by
  intro s hs hp b s' hs' hp' f g hf hg heq
  rcases isLeaf_or b with hlb | hlb
  · exact absurd heq.symm (leaf_vs_nonleaf ts p b (.Pointer e) s' s g f hlb rfl hp' hp hs' hs hg)
  obtain ⟨restb, hrb⟩ := prefix_of ts p b s' hs'
  simp only [printer.formatType, Option.map_eq_some'] at hs
  obtain ⟨s2, h2, rfl⟩ := hs
  simp only [isPlain] at hp
  cases b with
  | Pointer e' =>
    simp only [printer.formatType, Option.map_eq_some'] at hs'
    obtain ⟨s2', h2', rfl⟩ := hs'
    simp only [isPlain] at hp'
    obtain ⟨hc, hfg⟩ := ih s2 h2 hp e' s2' h2' hp' f g hf hg (by simpa using heq)
    exact ⟨by simp [canonType, hc], hfg⟩
  | Chan d e' =>
    exfalso
    cases d <;> (rw [hrb] at heq; simp [headOf] at heq)
  | _ =>
    exfalso
    first
      | (simp [isLeaf] at hlb; done)
      | (simp [isPlain] at hp'; done)
      | (rw [hrb] at heq; simp [headOf] at heq)

theorem typeReadable_slice (ts : GoType → String) (p : printer) (e : GoType)
    (ih : TypeReadable ts p e) : TypeReadable ts p (.Slice e) := by
  intro s hs hp b s' hs' hp' f g hf hg heq
  rcases isLeaf_or b with hlb | hlb
  · exact absurd heq.symm
      (leaf_vs_nonleaf ts p b (.Slice e) s' s g f hlb rfl hp' hp hs' hs hg)
  obtain ⟨restb, hrb⟩ := prefix_of ts p b s' hs'
  simp only [printer.formatType, Option.map_eq_some'] at hs
  obtain ⟨s2, h2, rfl⟩ := hs
  simp only [isPlain] at hp
  cases b with
  | Slice e' =>
    simp only [printer.formatType, Option.map_eq_some'] at hs'
    obtain ⟨s2', h2', rfl⟩ := hs'
    simp only [isPlain] at hp'
    obtain ⟨hc, hfg⟩ := ih s2 h2 hp e' s2' h2' hp' f g hf hg (by simpa using heq)
    exact ⟨by simp [canonType, hc], hfg⟩
  | Array n e' =>
    exfalso
    simp only [printer.formatType, Option.map_eq_some'] at hs'
    obtain ⟨s2', h2', rfl⟩ := hs'
    obtain ⟨hne, hcl⟩ := int_toString_clean n
    cases hd : (toString n).data with
    | nil => exact hne hd
    | cons c r =>
      have hc := hcl c (by rw [hd]; simp)
      simp [hd] at heq
      rw [← heq.1] at hc
      exact absurd hc (by decide)
  | Chan d e' =>
    exfalso
    cases d <;> (rw [hrb] at heq; simp [headOf] at heq)
  | _ =>
    exfalso
    first
      | (simp [isLeaf] at hlb; done)
      | (simp [isPlain] at hp'; done)
      | (rw [hrb] at heq; simp [headOf] at heq)

theorem typeReadable_array (ts : GoType → String) (p : printer) (n : Int) (e : GoType)
    (ih : TypeReadable ts p e) : TypeReadable ts p (.Array n e) := by
  intro s hs hp b s' hs' hp' f g hf hg heq
  rcases isLeaf_or b with hlb | hlb
  · exact absurd heq.symm
      (leaf_vs_nonleaf ts p b (.Array n e) s' s g f hlb rfl hp' hp hs' hs hg)
  obtain ⟨restb, hrb⟩ := prefix_of ts p b s' hs'
  simp only [printer.formatType, Option.map_eq_some'] at hs
  obtain ⟨s2, h2, rfl⟩ := hs
  simp only [isPlain] at hp
  cases b with
  | Array m e' =>
    simp only [printer.formatType, Option.map_eq_some'] at hs'
    obtain ⟨s2', h2', rfl⟩ := hs'
    simp only [isPlain] at hp'
    have heq2 : (toString n).data ++ ']' :: (s2.data ++ f) =
        (toString m).data ++ ']' :: (s2'.data ++ g) := by simpa using heq
    obtain ⟨hnm, htail⟩ := split_unique _ _ _ _ (int_toString_clean n).2
      (int_toString_clean m).2 (Or.inr ⟨']', _, rfl, rfl⟩) (Or.inr ⟨']', _, rfl, rfl⟩) heq2
    have hnm' := int_toString_injective n m hnm
    obtain ⟨hc, hfg⟩ := ih s2 h2 hp e' s2' h2' hp' f g hf hg (by simpa using htail)
    exact ⟨by simp [canonType, hc, hnm'], hfg⟩
  | Slice e' =>
    exfalso
    simp only [printer.formatType, Option.map_eq_some'] at hs'
    obtain ⟨s2', h2', rfl⟩ := hs'
    obtain ⟨hne, hcl⟩ := int_toString_clean n
    cases hd : (toString n).data with
    | nil => exact hne hd
    | cons c r =>
      have hc := hcl c (by rw [hd]; simp)
      simp [hd] at heq
      rw [heq.1] at hc
      exact absurd hc (by decide)
  | Chan d e' =>
    exfalso
    cases d <;> (rw [hrb] at heq; simp [headOf] at heq)
  | _ =>
    exfalso
    first
      | (simp [isLeaf] at hlb; done)
      | (simp [isPlain] at hp'; done)
      | (rw [hrb] at heq; simp [headOf] at heq)

theorem typeReadable_map (ts : GoType → String) (p : printer) (k e : GoType)
    (ihk : TypeReadable ts p k) (ihe : TypeReadable ts p e) :
    TypeReadable ts p (.Map k e) := by
  intro s hs hp b s' hs' hp' f g hf hg heq
  rcases isLeaf_or b with hlb | hlb
  · exact absurd heq.symm
      (leaf_vs_nonleaf ts p b (.Map k e) s' s g f hlb rfl hp' hp hs' hs hg)
  obtain ⟨restb, hrb⟩ := prefix_of ts p b s' hs'
  simp only [printer.formatType, Option.bind_eq_some, Option.map_eq_some'] at hs
  obtain ⟨s1, h1, s2, h2, rfl⟩ := hs
  simp only [isPlain, Bool.and_eq_true] at hp
  cases b with
  | Map k' e' =>
    simp only [printer.formatType, Option.bind_eq_some, Option.map_eq_some'] at hs'
    obtain ⟨s1', h1', s2', h2', rfl⟩ := hs'
    simp only [isPlain, Bool.and_eq_true] at hp'
    have heq2 : s1.data ++ ']' :: (s2.data ++ f) = s1'.data ++ ']' :: (s2'.data ++ g) := by
      simpa using heq
    obtain ⟨hck, htail⟩ := ihk s1 h1 hp.1 k' s1' h1' hp'.1 _ _
      (Or.inr ⟨']', _, rfl, Or.inl rfl⟩) (Or.inr ⟨']', _, rfl, Or.inl rfl⟩) heq2
    obtain ⟨hce, hfg⟩ := ihe s2 h2 hp.2 e' s2' h2' hp'.2 f g hf hg (by simpa using htail)
    exact ⟨by simp [canonType, hck, hce], hfg⟩
  | Chan d e' =>
    exfalso
    cases d <;> (rw [hrb] at heq; simp [headOf] at heq)
  | _ =>
    exfalso
    first
      | (simp [isLeaf] at hlb; done)
      | (simp [isPlain] at hp'; done)
      | (rw [hrb] at heq; simp [headOf] at heq)

theorem typeReadable_signature (ts : GoType → String) (p : printer) (sig : Signature)
    (ih : SigReadable ts p sig) : TypeReadable ts p (.Signature sig) := by
  intro s hs hp b s' hs' hp' f g hf hg heq
  rcases isLeaf_or b with hlb | hlb
  · exact absurd heq.symm
      (leaf_vs_nonleaf ts p b (.Signature sig) s' s g f hlb rfl hp' hp hs' hs hg)
  obtain ⟨restb, hrb⟩ := prefix_of ts p b s' hs'
  have hsa := hs
  simp only [printer.formatType, Option.map_eq_some'] at hs
  obtain ⟨s2, h2, rfl⟩ := hs
  obtain ⟨resta, hra⟩ := formatSignature_head ts p sig s2 h2
  simp only [isPlain] at hp
  cases b with
  | Signature sig' =>
    simp only [printer.formatType, Option.map_eq_some'] at hs'
    obtain ⟨s2', h2', rfl⟩ := hs'
    simp only [isPlain] at hp'
    obtain ⟨hc, hfg⟩ := ih s2 h2 hp sig' s2' h2' hp' f g hf hg (by simpa using heq)
    exact ⟨by simp [canonType, hc], hfg⟩
  | Chan d e' =>
    exfalso
    cases d <;> (rw [hrb] at heq; simp [headOf] at heq)
  | _ =>
    exfalso
    first
      | (simp [isLeaf] at hlb; done)
      | (simp [isPlain] at hp'; done)
      | (rw [hrb] at heq; simp [headOf] at heq)

theorem typeReadable_chan (ts : GoType → String) (p : printer) (d : ChanDir) (e : GoType)
    (ih : TypeReadable ts p e) : TypeReadable ts p (.Chan d e) := by
  intro s hs hp b s' hs' hp' f g hf hg heq
  rcases isLeaf_or b with hlb | hlb
  · exact absurd heq.symm
      (leaf_vs_nonleaf ts p b (.Chan d e) s' s g f hlb rfl hp' hp hs' hs hg)
  obtain ⟨restb, hrb⟩ := prefix_of ts p b s' hs'
  cases b with
  | Chan d' e' =>
    cases d <;> cases d' <;>
      simp only [printer.formatType, Option.map_eq_some'] at hs hs' <;>
      obtain ⟨s2, h2, rfl⟩ := hs <;>
      obtain ⟨s2', h2', rfl⟩ := hs' <;>
      simp only [isPlain, Bool.and_eq_true, Bool.not_eq_true'] at hp hp'
    · -- both bidirectional
      obtain ⟨hc, hfg⟩ := ih s2 h2 hp.1 e' s2' h2' hp'.1 f g hf hg (by simpa using heq)
      exact ⟨by simp [canonType, hc], hfg⟩
    · -- bidirectional against send-only: the element would be a receive-only channel
      exfalso
      obtain ⟨c, r, h3, _, h5⟩ := render_head ts p e s2 hp.1 h2
      simp [h3] at heq
      rw [h5 heq.1] at hp
      exact absurd hp.2 (by decide)
    · exfalso
      simp at heq
    · -- send-only against bidirectional
      exfalso
      obtain ⟨c, r, h3, _, h5⟩ := render_head ts p e' s2' hp'.1 h2'
      simp [h3] at heq
      rw [h5 heq.1.symm] at hp'
      exact absurd hp'.2 (by decide)
    · obtain ⟨hc, hfg⟩ := ih s2 h2 hp e' s2' h2' hp' f g hf hg (by simpa using heq)
      exact ⟨by simp [canonType, hc], hfg⟩
    · exfalso
      simp at heq
    · exfalso
      simp at heq
    · exfalso
      simp at heq
    · obtain ⟨hc, hfg⟩ := ih s2 h2 hp e' s2' h2' hp' f g hf hg (by simpa using heq)
      exact ⟨by simp [canonType, hc], hfg⟩
  | _ =>
    exfalso
    first
      | (simp [isLeaf] at hlb; done)
      | (simp [isPlain] at hp'; done)
      | (cases d <;>
          (simp only [printer.formatType, Option.map_eq_some'] at hs
           obtain ⟨s2, h2, rfl⟩ := hs
           rw [hrb] at heq
           simp [headOf] at heq))

theorem readable_all (ts : GoType → String) (p : printer) :
    (∀ t, TypeReadable ts p t) ∧ (∀ s, SigReadable ts p s) ∧
    (∀ l, (∀ w ∈ l, TypeReadable ts p w.typ) ∧ VarsReadable ts p l) := by
  apply goType_induct
  · intro n; exact typeReadable_leaf ts p _ rfl
  · intro fl s _ hp; simp [isPlain] at hp
  · intro o; exact typeReadable_leaf ts p _ rfl
  · intro e ih; exact typeReadable_pointer ts p e ih
  · intro e ih; exact typeReadable_slice ts p e ih
  · intro n e ih; exact typeReadable_array ts p n e ih
  · intro s ih; exact typeReadable_signature ts p s ih
  · intro m s _ hp; simp [isPlain] at hp
  · intro k e ih1 ih2; exact typeReadable_map ts p k e ih1 ih2
  · intro d e ih; exact typeReadable_chan ts p d e ih
  · intro l s _ hp; simp [isPlain] at hp
  · intro r ps rs v hp hr
    apply sigReadable_mk
    · cases ps with
      | none => exact varsReadable_nil ts p
      | some l => exact (hp l rfl).2
    · cases rs with
      | none => exact varsReadable_nil ts p
      | some l => exact (hr l rfl).2
    · cases rs with
      | none => intro w hw; simp at hw
      | some l => exact (hr l rfl).1
  · exact ⟨fun w hw => by simp at hw, varsReadable_nil ts p⟩
  · intro n x t rest iht ihs ihr
    refine ⟨?_, varsReadable_cons ts p (.mk n x t) rest iht ihs ihr.2⟩
    intro w hw
    rcases List.mem_cons.mp hw with rfl | hw
    · exact iht
    · exact ihr.1 w hw

/-- C3 (as stated, refuted): `formatType` is not injective on the recognised shapes. The
different channel types `chan<- chan int` and `chan (<-chan int)` both render as
`chan <- chan int`, and the named types `T` of the different packages `x/vendor/a` and `a`
both render as `a.T`. -/
theorem formatType_not_injective :
    chanSendOfChan ≠ chanOfRecvChan ∧
    (emptyPrinter "p").formatType testTypeString chanSendOfChan = some "chan <- chan int" ∧
    (emptyPrinter "p").formatType testTypeString chanOfRecvChan = some "chan <- chan int" ∧
    vendoredT ≠ plainT ∧
    (emptyPrinter "p").formatType testTypeString vendoredT = some "a.T" ∧
    (emptyPrinter "p").formatType testTypeString plainT = some "a.T" := by
  refine ⟨?_, by decide, by decide, ?_, by decide, by decide⟩
  · intro h
    simp [chanSendOfChan, chanOfRecvChan] at h
  · intro h
    simp [vendoredT, plainT] at h

/-- C3 (amended): for a fixed printer, two types built from basic and named types with
clean names (not empty, free of spaces, commas, parentheses, brackets, `*` and `<`, not
starting with a dot) by pointers, slices, arrays, maps, channels and signatures, in which no
bidirectional channel has a receive-only channel as its element and only a signature with a
parameter is variadic, have the same rendering only if they have the same canonical form:
the same shape, array lengths, channel directions, arities and variadic flags, and the same
rendered name at every leaf. In particular two such types that are their own canonical form
and render alike are equal. -/
theorem formatType_injective_plain (ts : GoType → String) (p : printer) (a b : GoType)
    (s : String) (ha : isPlain p a = true) (hb : isPlain p b = true)
    (h1 : p.formatType ts a = some s) (h2 : p.formatType ts b = some s) :
    canonType p a = canonType p b ∧
      (canonType p a = a → canonType p b = b → a = b) := by
  have h := ((readable_all ts p).1 a s h1 ha b s h2 hb [] [] (Or.inl rfl) (Or.inl rfl) rfl).1
  exact ⟨h, fun e1 e2 => by rw [← e1, ← e2, h]⟩

theorem formatType_injective_plain_witness :
    canonType (emptyPrinter "p") funcWithNames = canonType (emptyPrinter "p") funcWithoutNames ∧
      (canonType (emptyPrinter "p") funcWithNames = funcWithNames →
        canonType (emptyPrinter "p") funcWithoutNames = funcWithoutNames →
        funcWithNames = funcWithoutNames) :=
  formatType_injective_plain testTypeString (emptyPrinter "p") funcWithNames funcWithoutNames
    "func(string, *A) (int, error)" (by decide) (by decide) (by decide) (by decide)

/-! ## Declarations of interfaces without exported methods, and of structs -/

theorem interfaceMethodLines_none_exported (ts : GoType → String) (path name : String)
    (methods : List Func) (h : ∀ f ∈ methods, f.exported = false) :
    interfaceMethodLines ts path name methods = some ([], []) := by
  induction methods with
  | nil => rfl
  | cons f rest ih =>
    unfold interfaceMethodLines
    simp only [h f (by simp), Bool.not_false, if_true]
    exact ih fun g hg => h g (by simp [hg])

/-- C11 (as stated, refuted): for `type Foo interface {}` the summary line is
`type Foo interface {}`, without a space between the braces, and not
`type Foo interface { }`. -/
theorem formatObj_empty_interface_no_space :
    (emptyPrinter "p").formatObj testTypeString (fun _ => .Struct []) declEmptyInterface =
        some { lines := ["type Foo interface \x7b\x7d"], pkgPath := "p" } ∧
      (emptyPrinter "p").formatObj testTypeString (fun _ => .Struct []) declEmptyInterface ≠
        some { lines := ["type Foo interface \x7b \x7d"], pkgPath := "p" } := by
  decide

/-- C11 (amended): for a type declaration whose underlying type is an interface without an
exported method, `formatObj` adds exactly one line, the summary line
`type <Name> interface {}` with nothing between the braces. -/
theorem formatObj_interface_no_exported (ts : GoType → String) (und : TypeName → GoType)
    (p : printer) (o : Object) (typ : GoType) (methods : List Func)
    (hk : o.kind = .TypeName typ) (hu : typ.Underlying und = .Interface methods)
    (hn : ∀ f ∈ methods, f.exported = false) :
    p.formatObj ts und o =
      some { lines := p.lines ++ ["type " ++ o.name ++ " interface \x7b\x7d"],
             pkgPath := p.pkgPath } := by
  unfold printer.formatObj
  rw [hk]
  simp only [hu, interfaceMethods_eq,
    interfaceMethodLines_none_exported ts p.pkgPath o.name methods hn, Option.map_some',
    List.append_nil, printer.printf, List.length_nil, if_true]

theorem formatObj_interface_no_exported_witness :
    (emptyPrinter "p").formatObj testTypeString (fun _ => .Struct []) declEmptyInterface =
      some { lines := (emptyPrinter "p").lines ++
               ["type " ++ declEmptyInterface.name ++ " interface \x7b\x7d"],
             pkgPath := (emptyPrinter "p").pkgPath } :=
  formatObj_interface_no_exported testTypeString (fun _ => .Struct []) (emptyPrinter "p")
    declEmptyInterface (.Interface []) [] rfl rfl (fun f hf => by simp at hf)

theorem structFieldLines_eq (ts : GoType → String) (path name : String) (fields : List Var) :
    ∀ texts : List String,
      List.Forall₂ (fun f s => (emptyPrinter path).formatType ts f.typ = some s)
        (fields.filter fun f => f.exported) texts →
      structFieldLines ts path name fields =
        some (List.zipWith (fun f s => "type " ++ name ++ " struct, " ++ f.name ++ " " ++ s)
          (fields.filter fun f => f.exported) texts) := by
  induction fields with
  | nil =>
    intro texts h
    cases h
    simp [structFieldLines]
  | cons f rest ih =>
    intro texts h
    unfold structFieldLines
    by_cases he : f.exported = true
    · simp only [List.filter_cons, he, if_true] at h
      cases h with
      | cons h1 h2 => simp [he, h1, ih _ h2]
    · simp only [List.filter_cons, he] at h
      simp [he, ih _ h]

theorem not_fieldLine_of_tail (name : String) (rest : List Char)
    (h : ¬ " struct, ".data <+: rest) (line : String)
    (hl : line.data = "type ".data ++ name.data ++ rest) : ¬ IsFieldLine name line := by
  unfold IsFieldLine
  rw [hl]
  simp only [String.data_append]
  rw [List.prefix_append_right_inj]
  exact h

theorem interfaceMethodLines_not_field (ts : GoType → String) (path name : String)
    (methods : List Func) :
    ∀ r, interfaceMethodLines ts path name methods = some r →
      ∀ line ∈ r.1, ¬ IsFieldLine name line := by
  induction methods with
  | nil =>
    intro r h line hl
    simp only [interfaceMethodLines, Option.some.injEq] at h
    rw [← h] at hl
    simp at hl
  | cons f rest ih =>
    intro r h line hl
    unfold interfaceMethodLines at h
    by_cases he : f.exported = true
    · simp only [he, Bool.not_true, Bool.false_eq_true, if_false, Option.bind_eq_some,
        Option.map_eq_some'] at h
      obtain ⟨s, _, r2, hr2, rfl⟩ := h
      rcases List.mem_cons.mp hl with rfl | hl
      · apply not_fieldLine_of_tail name (" interface, ".data ++ f.name.data ++ s.data)
        · simp
        · simp [List.append_assoc]
      · exact ih r2 hr2 line hl
    · simp only [he, Bool.not_false, if_true] at h
      exact ih r h line hl

/-- C12: for a type declaration, `formatObj` adds, when the underlying type is a struct,
the header line `type <Name> struct` followed by exactly one line
`type <Name> struct, <FieldName> <renderedType>` for each exported field, in order, and none
for the other fields, so that there are as many field lines as exported fields; and when
the underlying type is not a struct (the names of basic and named types not being of the
form `struct, ...`) it adds no line of the form `type <Name> struct, ...`. -/
theorem formatObj_struct (ts : GoType → String) (und : TypeName → GoType) (p : printer)
    (o : Object) (typ : GoType) (hk : o.kind = .TypeName typ) :
    (∀ fields texts, typ.Underlying und = .Struct fields →
      List.Forall₂ (fun f s => p.formatType ts f.typ = some s)
        (fields.filter fun f => f.exported) texts →
      p.formatObj ts und o =
          some { lines := p.lines ++ ("type " ++ o.name ++ " struct") ::
                   List.zipWith
                     (fun f s => "type " ++ o.name ++ " struct, " ++ f.name ++ " " ++ s)
                     (fields.filter fun f => f.exported) texts,
                 pkgPath := p.pkgPath } ∧
        (List.zipWith (fun f s => "type " ++ o.name ++ " struct, " ++ f.name ++ " " ++ s)
          (fields.filter fun f => f.exported) texts).length =
          (fields.filter fun f => f.exported).length) ∧
    ((∀ fields, typ.Underlying und ≠ .Struct fields) →
      (∀ s, isLeaf (typ.Underlying und) = true →
        p.formatType ts (typ.Underlying und) = some s → ¬ "struct, ".data <+: s.data) →
      ∀ ls, objLines ts und p.pkgPath o = some ls → ∀ line ∈ ls, ¬ IsFieldLine o.name line) := by
  constructor
  · intro fields texts hu hs
    have hs' : List.Forall₂
        (fun f s => (emptyPrinter p.pkgPath).formatType ts f.typ = some s)
        (fields.filter fun f => f.exported) texts :=
      hs.imp fun {f s} h => by rw [← formatType_emptyPrinter]; exact h
    constructor
    · unfold printer.formatObj
      rw [hk]
      simp only [hu, structFields_eq, printer.printf,
        structFieldLines_eq ts p.pkgPath o.name fields texts hs', Option.map_some',
        List.append_assoc, List.singleton_append]
    · rw [List.length_zipWith, hs.length_eq, Nat.min_self]
  · intro hns hleaf ls hls line hline
    unfold objLines printer.formatObj at hls
    rw [hk] at hls
    simp only [] at hls
    generalize hu : typ.Underlying und = u at hls hns hleaf
    cases u with
    | Struct fields => exact absurd rfl (hns fields)
    | Interface methods =>
      simp only [interfaceMethods_eq, emptyPrinter] at hls
      cases hm : interfaceMethodLines ts p.pkgPath o.name methods with
      | none => simp [hm] at hls
      | some r =>
        have hnf := interfaceMethodLines_not_field ts p.pkgPath o.name methods r hm
        simp only [hm, Option.map_some', List.nil_append, printer.printf] at hls
        split at hls
        · simp only [Option.map_some', Option.some.injEq] at hls
          rw [← hls] at hline
          rcases List.mem_append.mp hline with h | h
          · exact hnf line h
          · simp only [List.mem_singleton] at h
            apply not_fieldLine_of_tail o.name " interface \x7b\x7d".data
            · simp
            · rw [h]; simp [List.append_assoc]
        · simp only [Option.map_some', Option.some.injEq] at hls
          rw [← hls] at hline
          rcases List.mem_append.mp hline with h | h
          · exact hnf line h
          · simp only [List.mem_singleton] at h
            apply not_fieldLine_of_tail o.name
              (" interface \x7b ".data ++ (join (sortStrings ([] ++ r.2)) ", ").data ++ " \x7d".data)
            · simp
            · rw [h]; simp [List.append_assoc]
    | Tuple l => simp [printer.formatType] at hls
    | Basic n =>
      simp only [Option.map_map, Option.map_eq_some'] at hls
      obtain ⟨t, ht, rfl⟩ := hls
      simp only [Function.comp, printer.printf, emptyPrinter, List.nil_append,
        List.mem_singleton] at hline
      have hne := hleaf t rfl (by rw [formatType_emptyPrinter]; exact ht)
      apply not_fieldLine_of_tail o.name (' ' :: t.data)
      · intro hp
        apply hne
        have : (" struct, " : String).data = ' ' :: "struct, ".data := rfl
        rw [this] at hp
        exact (List.cons_prefix_cons.mp hp).2
      · rw [hline]; simp [List.append_assoc]
    | Named n =>
      simp only [Option.map_map, Option.map_eq_some'] at hls
      obtain ⟨t, ht, rfl⟩ := hls
      simp only [Function.comp, printer.printf, emptyPrinter, List.nil_append,
        List.mem_singleton] at hline
      have hne := hleaf t rfl (by rw [formatType_emptyPrinter]; exact ht)
      apply not_fieldLine_of_tail o.name (' ' :: t.data)
      · intro hp
        apply hne
        have : (" struct, " : String).data = ' ' :: "struct, ".data := rfl
        rw [this] at hp
        exact (List.cons_prefix_cons.mp hp).2
      · rw [hline]; simp [List.append_assoc]
    | _ =>
      simp only [Option.map_map, Option.map_eq_some'] at hls
      obtain ⟨t, ht, rfl⟩ := hls
      simp only [Function.comp, printer.printf, emptyPrinter, List.nil_append,
        List.mem_singleton] at hline
      obtain ⟨rest, hrest⟩ := prefix_of ts _ _ t ht
      apply not_fieldLine_of_tail o.name (' ' :: t.data)
      · rw [hrest]
        intro hp
        have : (" struct, " : String).data = ' ' :: "struct, ".data := rfl
        rw [this] at hp
        have hp2 := (List.cons_prefix_cons.mp hp).2
        first
          | (simp [headOf] at hp2; done)
          | (rename_i d e; cases d <;> simp [headOf] at hp2)
      · rw [hline]; simp [List.append_assoc]

theorem formatObj_struct_witness :
    (∀ fields texts, (GoType.Named nameFoo).Underlying testUnd = .Struct fields →
      List.Forall₂ (fun f s => (emptyPrinter "p").formatType testTypeString f.typ = some s)
        (fields.filter fun f => f.exported) texts →
      (emptyPrinter "p").formatObj testTypeString testUnd declFooStruct =
          some { lines := (emptyPrinter "p").lines ++
                   ("type " ++ declFooStruct.name ++ " struct") ::
                   List.zipWith
                     (fun f s =>
                       "type " ++ declFooStruct.name ++ " struct, " ++ f.name ++ " " ++ s)
                     (fields.filter fun f => f.exported) texts,
                 pkgPath := (emptyPrinter "p").pkgPath } ∧
        (List.zipWith
          (fun f s => "type " ++ declFooStruct.name ++ " struct, " ++ f.name ++ " " ++ s)
          (fields.filter fun f => f.exported) texts).length =
          (fields.filter fun f => f.exported).length) ∧
    ((∀ fields, (GoType.Named nameFoo).Underlying testUnd ≠ .Struct fields) →
      (∀ s, isLeaf ((GoType.Named nameFoo).Underlying testUnd) = true →
        (emptyPrinter "p").formatType testTypeString
          ((GoType.Named nameFoo).Underlying testUnd) = some s →
        ¬ "struct, ".data <+: s.data) →
      ∀ ls, objLines testTypeString testUnd (emptyPrinter "p").pkgPath declFooStruct = some ls →
        ∀ line ∈ ls, ¬ IsFieldLine declFooStruct.name line) :=
  formatObj_struct testTypeString testUnd (emptyPrinter "p") declFooStruct (.Named nameFoo) rfl

theorem declFooStruct_lines :
    (emptyPrinter "p").formatObj testTypeString testUnd declFooStruct =
      some {
        lines := ["type Foo struct", "type Foo struct, A I",
          "type Foo struct, B map[string]I"],
        pkgPath := "p" } ∧
    (emptyPrinter "p").formatObj testTypeString (fun _ => .Struct []) declContextKey =
      some { lines := ["type ContextKey struct"], pkgPath := "p" } := by
  decide

/-! ## Definitions that are not considered -/

theorem formatDefs_skip (ts : GoType → String) (und : TypeName → GoType) (pkg : Package)
    (p : printer) (d : Option Object) (rest : List (Option Object))
    (h : considered pkg d = false) :
    formatDefs ts und pkg p (d :: rest) = formatDefs ts und pkg p rest := by
  cases d with
  | none => simp [formatDefs]
  | some d =>
    rw [formatDefs]
    by_cases he : d.exported = true
    · simp only [considered, he, Bool.true_and, Bool.not_eq_false',
        decide_eq_true_eq] at h
      simp [he, h]
    · simp [he]

theorem formatDefs_consider (ts : GoType → String) (und : TypeName → GoType) (pkg : Package)
    (p : printer) (d : Option Object) (rest : List (Option Object))
    (h : considered pkg d = true) :
    ∃ o, d = some o ∧ o.exported = true ∧ (o.parent = none ∨ o.parent = some pkg.scope) ∧
      formatDefs ts und pkg p (d :: rest) =
        (p.formatObj ts und o).bind fun p1 => formatDefs ts und pkg p1 rest := by
  cases d with
  | none => simp [considered] at h
  | some d =>
    simp only [considered, Bool.and_eq_true, Bool.not_eq_true', decide_eq_false_iff_not,
      not_and_or, not_not] at h
    refine ⟨d, rfl, h.1, h.2, ?_⟩
    rw [formatDefs]
    have hs : ¬ (d.parent ≠ none ∧ d.parent ≠ some pkg.scope) := by
      rintro ⟨h1, h2⟩
      rcases h.2 with h3 | h3
      · exact h1 h3
      · exact h2 h3
    simp only [h.1, Bool.not_true, Bool.false_eq_true, if_false, hs]
    cases p.formatObj ts und d <;> rfl

theorem formatDefs_filter (ts : GoType → String) (und : TypeName → GoType) (pkg : Package)
    (defs : List (Option Object)) :
    ∀ p, formatDefs ts und pkg p defs =
      formatDefs ts und pkg p (defs.filter (considered pkg)) := by
  induction defs with
  | nil => intro p; rfl
  | cons d rest ih =>
    intro p
    cases hc : considered pkg d with
    | false => rw [formatDefs_skip ts und pkg p d rest hc, List.filter_cons_of_neg (by simp [hc])]
               exact ih p
    | true =>
      rw [List.filter_cons_of_pos hc]
      obtain ⟨o, rfl, _, _, h1⟩ := formatDefs_consider ts und pkg p d rest hc
      obtain ⟨o', ho', _, _, h2⟩ := formatDefs_consider ts und pkg p (some o)
        (rest.filter (considered pkg)) hc
      cases ho'
      rw [h1, h2]
      cases p.formatObj ts und o with
      | none => rfl
      | some p1 => exact ih p1

/-- C13: a definition that is absent, unexported, or declared in a scope that is neither nil
nor the scope of the package is skipped by the loop of `formatAPI` without being passed to
`formatObj`, whatever `formatObj` would do with it; so the output of `formatAPI` equals its
output on the model with all such definitions removed, and every definition that remains
is present, exported and has a nil parent or the package scope as parent. -/
theorem formatAPI_skips_unconsidered (ts : GoType → String) (und : TypeName → GoType)
    (pkg : Package) (defs : List (Option Object)) (buff : String) :
    formatAPI ts und pkg { Defs := defs } buff =
        formatAPI ts und pkg { Defs := defs.filter (considered pkg) } buff ∧
      (∀ p d rest, considered pkg d = false →
        formatDefs ts und pkg p (d :: rest) = formatDefs ts und pkg p rest) ∧
      (∀ d ∈ defs.filter (considered pkg), ∃ o, d = some o ∧ o.exported = true ∧
        (o.parent = none ∨ o.parent = some pkg.scope)) := by
  refine ⟨?_, fun p d rest h => formatDefs_skip ts und pkg p d rest h, ?_⟩
  · unfold formatAPI
    simp only []
    rw [formatDefs_filter]
  · intro d hd
    obtain ⟨o, ho, h1, h2, _⟩ := formatDefs_consider ts und pkg (emptyPrinter "") d []
      (List.mem_filter.mp hd).2
    exact ⟨o, ho, h1, h2⟩

theorem labels_test :
    (emptyPrinter "p").formatObj testTypeString (fun _ => .Struct []) labelError = none ∧
    considered testPkg (some labelError) = false ∧
    formatAPI testTypeString (fun _ => .Struct []) testPkg { Defs := labelDefs } "" =
      some "pkg p, func Foo(int, ...interface\x7b\x7d)\n" := by
  decide

/-! ## Aborts -/

theorem allLines_none_of_mem (ts : GoType → String) (und : TypeName → GoType) (pkg : Package)
    (path : String) (defs : List (Option Object)) (d : Option Object) (hd : d ∈ defs)
    (h : defLines ts und pkg path d = none) : allLines ts und pkg path defs = none := by
  induction defs with
  | nil => simp at hd
  | cons x rest ih =>
    unfold allLines
    rcases List.mem_cons.mp hd with rfl | hd
    · simp [h]
    · cases defLines ts und pkg path x with
      | none => rfl
      | some a => simp [ih hd]

theorem defLines_considered (ts : GoType → String) (und : TypeName → GoType) (pkg : Package)
    (path : String) (o : Object) (h : considered pkg (some o) = true) :
    defLines ts und pkg path (some o) = objLines ts und path o := by
  simp only [considered, Bool.and_eq_true, Bool.not_eq_true', decide_eq_false_iff_not] at h
  unfold defLines
  simp [h.1, h.2]

theorem formatAPIOutcome_eq (ts : GoType → String) (und : TypeName → GoType) (pkg : Package)
    (info : Info) (buff : String) :
    formatAPIOutcome ts und pkg info buff =
      match allLines ts und pkg (packagePath pkg) info.Defs with
      | none => .panicked buff
      | some ls => .returned (buff ++ document ((sortStrings ls).map fun line =>
          "pkg " ++ packagePath pkg ++ ", " ++ line)) := by
  unfold formatAPIOutcome
  simp only [formatDefs_eq]
  cases allLines ts und pkg (packagePath pkg) info.Defs with
  | none => rfl
  | some ls => simp [write_eq, printer.outputLines]

/-- C14: `formatObj` aborts on an object that is neither a constant, a variable, a type name
nor a function; `formatType` aborts on a type of an unrecognised shape; and when `formatObj`
aborts on one of the considered definitions, the call of `formatAPI` ends in a panic with
the buffer holding exactly what it held before the call: nothing has been written. Whenever
the call ends in a panic the buffer is unchanged, and when it returns the buffer has received
the whole document, the lines of every considered definition. The result of `formatAPI` is
the buffer of a returning call. -/
theorem formatAPI_all_or_nothing (ts : GoType → String) (und : TypeName → GoType)
    (pkg : Package) (defs : List (Option Object)) (buff : String) :
    (∀ (p : printer) (o : Object), (∀ t v, o.kind ≠ .Const t v) →
      (∀ f t, o.kind ≠ .Var f t) → (∀ t, o.kind ≠ .TypeName t) → (∀ s, o.kind ≠ .Func s) →
      p.formatObj ts und o = none) ∧
    (∀ (p : printer) (vars : List Var), p.formatType ts (.Tuple vars) = none) ∧
    (∀ o, some o ∈ defs → considered pkg (some o) = true →
      (∃ p : printer, p.pkgPath = packagePath pkg ∧ p.formatObj ts und o = none) →
      formatAPIOutcome ts und pkg { Defs := defs } buff = .panicked buff) ∧
    (∀ b, formatAPIOutcome ts und pkg { Defs := defs } buff = .panicked b → b = buff) ∧
    (∀ out, formatAPIOutcome ts und pkg { Defs := defs } buff = .returned out →
      ∃ ls, allLines ts und pkg (packagePath pkg) defs = some ls ∧
        out = buff ++ document ((sortStrings ls).map fun line =>
          "pkg " ++ packagePath pkg ++ ", " ++ line)) ∧
    formatAPI ts und pkg { Defs := defs } buff =
      (match formatAPIOutcome ts und pkg { Defs := defs } buff with
        | .returned out => some out
        | .panicked _ => none) := by
  refine ⟨?_, ?_, ?_, ?_, ?_, ?_⟩
  · intro p o h1 h2 h3 h4
    unfold printer.formatObj
    cases hk : o.kind with
    | Const t v => exact absurd hk (h1 t v)
    | Var f t => exact absurd hk (h2 f t)
    | TypeName t => exact absurd hk (h3 t)
    | Func s => exact absurd hk (h4 s)
    | _ => rfl
  · intro p vars
    simp [printer.formatType]
  · rintro o ho hc ⟨p, hp, hnone⟩
    rw [formatAPIOutcome_eq]
    have hl : objLines ts und (packagePath pkg) o = none := by
      rw [formatObj_eq, hp] at hnone
      cases h : objLines ts und (packagePath pkg) o with
      | none => rfl
      | some ls => simp [h] at hnone
    have hd : defLines ts und pkg (packagePath pkg) (some o) = none := by
      rw [defLines_considered ts und pkg _ o hc, hl]
    simp only [allLines_none_of_mem ts und pkg _ defs (some o) ho hd]
  · intro b h
    rw [formatAPIOutcome_eq] at h
    cases hl : allLines ts und pkg (packagePath pkg) defs with
    | none =>
      simp only [hl, Outcome.panicked.injEq] at h
      exact h.symm
    | some ls => simp [hl] at h
  · intro out h
    rw [formatAPIOutcome_eq] at h
    cases hl : allLines ts und pkg (packagePath pkg) defs with
    | none => simp [hl] at h
    | some ls =>
      simp only [hl, Outcome.returned.injEq] at h
      exact ⟨ls, rfl, h.symm⟩
  · rw [formatAPIOutcome_eq, formatAPI_eq]
    cases allLines ts und pkg (packagePath pkg) defs <;> rfl

theorem abortingDefs_test :
    formatAPIOutcome testTypeString (fun _ => .Struct []) testPkg { Defs := abortingDefs }
      "pkg o, var X int\n" = .panicked "pkg o, var X int\n" ∧
    formatAPIOutcome testTypeString (fun _ => .Struct []) testPkg
      { Defs := abortingDefs.reverse } "pkg o, var X int\n" = .panicked "pkg o, var X int\n" ∧
    formatAPI testTypeString (fun _ => .Struct []) testPkg { Defs := abortingDefs } "" = none ∧
    formatAPIOutcome testTypeString (fun _ => .Struct []) testPkg { Defs := labelDefs }
      "pkg o, var X int\n" =
      .returned "pkg o, var X int\npkg p, func Foo(int, ...interface\x7b\x7d)\n" ∧
    (emptyPrinter "p").formatObj testTypeString (fun _ => .Struct [])
      { name := "fmt", exported := true, parent := some 0, kind := .PkgName } = none := by
  decide

/-! ## `write`, variables and constants -/

/-- C15: `write` appends to the buffer exactly the concatenation, over the collected lines in
sorted order, of `pkg `, the path of the printer, `, `, the line and a line break. The
sorted lines are a rearrangement of the collected lines, so there is one output line per
collected line, duplicates included, and every output line starts with the same prefix
`pkg <path>, `. In `formatAPI` the path of the printer is the de-vendored path of the
package. -/
theorem write_document (p : printer) (buff : String) :
    p.write buff = buff ++ document ((sortStrings p.lines).map fun line =>
        "pkg " ++ p.pkgPath ++ ", " ++ line) ∧
      (sortStrings p.lines).Perm p.lines ∧
      List.Sorted strLE (sortStrings p.lines) ∧
      ((sortStrings p.lines).map fun line => "pkg " ++ p.pkgPath ++ ", " ++ line).length =
        p.lines.length ∧
      (∀ l ∈ (sortStrings p.lines).map fun line => "pkg " ++ p.pkgPath ++ ", " ++ line,
        ("pkg " ++ p.pkgPath ++ ", ").data <+: l.data) ∧
      (∀ (ts : GoType → String) (und : TypeName → GoType) (pkg : Package) (info : Info)
          (q : printer),
        formatDefs ts und pkg { lines := [], pkgPath := packagePath pkg } info.Defs = some q →
        q.pkgPath = packagePath pkg ∧ formatAPI ts und pkg info buff = some (q.write buff)) := by
  refine ⟨write_eq p buff, sortStrings_perm p.lines, sortStrings_sorted p.lines, ?_, ?_, ?_⟩
  · rw [List.length_map, (sortStrings_perm p.lines).length_eq]
  · intro l hl
    obtain ⟨line, _, rfl⟩ := List.mem_map.mp hl
    rw [String.data_append]
    exact List.prefix_append _ _
  · intro ts und pkg info q hq
    constructor
    · rw [formatDefs_eq] at hq
      cases hl : allLines ts und pkg (packagePath pkg) info.Defs with
      | none => simp [hl] at hq
      | some ls =>
        simp only [hl, Option.map_some', Option.some.injEq] at hq
        rw [← hq]
    · unfold formatAPI
      simp only [hq]

theorem write_keeps_duplicates :
    printer.write { lines := ["b", "a", "b"], pkgPath := "p" } "" =
      "pkg p, a\npkg p, b\npkg p, b\n" := by
  decide

/-- C16: for a variable that is not a struct field `formatObj` adds exactly one line
`var <Name> <T>`, where `T` is `formatType` of the underlying type of the variable's type
(and aborts when that rendering aborts); for a variable that is a struct field it adds no
line. -/
theorem formatObj_var (ts : GoType → String) (und : TypeName → GoType) (p : printer)
    (o : Object) (isField : Bool) (typ : GoType) (hk : o.kind = .Var isField typ) :
    (isField = true → p.formatObj ts und o = some p) ∧
    (isField = false →
      p.formatObj ts und o =
        (p.formatType ts (typ.Underlying und)).map fun t =>
          { lines := p.lines ++ ["var " ++ o.name ++ " " ++ t], pkgPath := p.pkgPath }) ∧
    (isField = false → ∀ t, p.formatType ts (typ.Underlying und) = some t →
      p.formatObj ts und o =
        some { lines := p.lines ++ ["var " ++ o.name ++ " " ++ t], pkgPath := p.pkgPath }) := by
  unfold printer.formatObj
  rw [hk]
  refine ⟨?_, ?_, ?_⟩
  · intro h; simp [h]
  · intro h; simp [h, printer.printf]
  · intro h t ht; simp [h, ht, printer.printf]

theorem formatObj_var_witness :
    (false = true →
      (emptyPrinter "p").formatObj testTypeString (fun _ => .Struct []) varOfNamed =
        some (emptyPrinter "p")) ∧
    (false = false →
      (emptyPrinter "p").formatObj testTypeString (fun _ => .Struct []) varOfNamed =
        ((emptyPrinter "p").formatType testTypeString
            ((GoType.Named nameA).Underlying (fun _ => .Struct []))).map fun t =>
          { lines := (emptyPrinter "p").lines ++ ["var " ++ varOfNamed.name ++ " " ++ t],
            pkgPath := (emptyPrinter "p").pkgPath }) ∧
    (false = false → ∀ t,
      (emptyPrinter "p").formatType testTypeString
          ((GoType.Named nameA).Underlying (fun _ => .Struct [])) = some t →
      (emptyPrinter "p").formatObj testTypeString (fun _ => .Struct []) varOfNamed =
        some { lines := (emptyPrinter "p").lines ++ ["var " ++ varOfNamed.name ++ " " ++ t],
               pkgPath := (emptyPrinter "p").pkgPath }) :=
  formatObj_var testTypeString (fun _ => .Struct []) (emptyPrinter "p") varOfNamed false
    (.Named nameA) rfl

theorem var_tests :
    (emptyPrinter "p").formatObj testTypeString (fun _ => .Struct []) varB =
      some { lines := ["var B int"], pkgPath := "p" } ∧
    (emptyPrinter "p").formatObj testTypeString (fun _ => .Struct []) varOfNamed =
      some { lines := ["var X struct\x7b\x7d"], pkgPath := "p" } ∧
    (emptyPrinter "p").formatObj testTypeString (fun _ => .Struct [])
      { name := "A", exported := true, parent := none, kind := .Var true (.Basic "int") } =
      some (emptyPrinter "p") := by
  decide

/-- C17: for a constant whose value has a known kind `formatObj` adds exactly one line
`const <Name> <kind>`, where `<kind>` is `bool` for a boolean, `string` for a string, `int`
for an integer, `float` for a floating-point and `complex` for a complex value. The word is
looked up from the kind of the value alone: two constant objects of the same name and the
same kind of value add the same line, whatever their declared types. -/
theorem formatObj_const (ts : GoType → String) (und : TypeName → GoType) (p : printer)
    (o : Object) (typ : GoType) (val : Kind) (word : String)
    (hk : o.kind = .Const typ val)
    (hw : (val = .Bool ∧ word = "bool") ∨ (val = .String ∧ word = "string") ∨
      (val = .Int ∧ word = "int") ∨ (val = .Float ∧ word = "float") ∨
      (val = .Complex ∧ word = "complex")) :
    p.formatObj ts und o =
        some { lines := p.lines ++ ["const " ++ o.name ++ " " ++ word],
               pkgPath := p.pkgPath } ∧
      (∀ (o' : Object) (typ' : GoType), o'.kind = .Const typ' val → o'.name = o.name →
        p.formatObj ts und o' = p.formatObj ts und o) := by
  refine ⟨?_, ?_⟩
  · unfold printer.formatObj
    rw [hk]
    rcases hw with ⟨rfl, rfl⟩ | ⟨rfl, rfl⟩ | ⟨rfl, rfl⟩ | ⟨rfl, rfl⟩ | ⟨rfl, rfl⟩ <;>
      simp [printer.printf, constStr]
  · intro o' typ' hk' hn
    unfold printer.formatObj
    rw [hk, hk', hn]

theorem formatObj_const_witness :
    (emptyPrinter "p").formatObj testTypeString (fun _ => .Struct []) constCOfNamed =
        some { lines := ["const C string"], pkgPath := "p" } ∧
      (∀ (o' : Object) (typ' : GoType), o'.kind = .Const typ' .String →
        o'.name = constCOfNamed.name →
        (emptyPrinter "p").formatObj testTypeString (fun _ => .Struct []) o' =
          (emptyPrinter "p").formatObj testTypeString (fun _ => .Struct []) constCOfNamed) :=
  formatObj_const testTypeString (fun _ => .Struct []) (emptyPrinter "p") constCOfNamed
    (.Named nameA) .String "string" rfl (Or.inr (Or.inl ⟨rfl, rfl⟩))

theorem const_test :
    (emptyPrinter "p").formatObj testTypeString (fun _ => .Struct []) constC =
      some { lines := ["const C string"], pkgPath := "p" } ∧
    (emptyPrinter "p").formatObj testTypeString (fun _ => .Struct [])
      { name := "Pi", exported := true, parent := some 0,
        kind := .Const (.Basic "float64") .Float } =
      some { lines := ["const Pi float"], pkgPath := "p" } := by
  decide

/-! ## Signatures do not show names and receivers -/

theorem paramTexts_types (ts : GoType → String) (p : printer) (v : Bool) (l : List Var) :
    ∀ l' : List Var, l.map Var.typ = l'.map Var.typ →
      paramTexts ts p v l = paramTexts ts p v l' := by
  induction l with
  | nil =>
    intro l' h
    cases l' with
    | nil => rfl
    | cons w r => simp at h
  | cons w rest ih =>
    intro l' h
    cases l' with
    | nil => simp at h
    | cons w' rest' =>
      simp only [List.map_cons, List.cons.injEq] at h
      have he : rest.isEmpty = rest'.isEmpty := by
        have := congrArg List.length h.2
        simp only [List.length_map] at this
        cases rest <;> cases rest' <;> simp_all
      simp only [paramTexts, h.1, he, ih rest' h.2]

theorem resultTexts_types (ts : GoType → String) (p : printer) (l : List Var) :
    ∀ l' : List Var, l.map Var.typ = l'.map Var.typ →
      resultTexts ts p l = resultTexts ts p l' := by
  induction l with
  | nil =>
    intro l' h
    cases l' with
    | nil => rfl
    | cons w r => simp at h
  | cons w rest ih =>
    intro l' h
    cases l' with
    | nil => simp at h
    | cons w' rest' =>
      simp only [List.map_cons, List.cons.injEq] at h
      simp only [resultTexts, h.1, ih rest' h.2]

theorem getD_map_types {a b : Option (List Var)}
    (h : a.map (List.map Var.typ) = b.map (List.map Var.typ)) :
    (a.getD []).map Var.typ = (b.getD []).map Var.typ := by
  cases a <;> cases b <;> simp_all

/-- C18: `formatSignature` depends only on the types of the parameters, the variadic flag
and the types of the results: two signatures that agree in these, whatever their receivers
and the names of their parameters and results, have the same rendering (or both abort). -/
theorem formatSignature_ignores_names (ts : GoType → String) (p : printer)
    (sig sig' : Signature) (hv : sig.variadic = sig'.variadic)
    (hp : sig.params.map (List.map Var.typ) = sig'.params.map (List.map Var.typ))
    (hr : sig.results.map (List.map Var.typ) = sig'.results.map (List.map Var.typ)) :
    p.formatSignature ts sig = p.formatSignature ts sig' := by
  obtain ⟨r, ps, rs, v⟩ := sig
  obtain ⟨r', ps', rs', v'⟩ := sig'
  simp only [Signature.variadic, Signature.params, Signature.results] at hv hp hr
  rw [formatSignature_eq, formatSignature_eq, paramsText_eq, paramsText_eq, resultsText_eq,
    resultsText_eq, hv, paramTexts_types ts p v' _ _ (getD_map_types hp),
    resultTexts_types ts p _ _ (getD_map_types hr)]

theorem formatSignature_ignores_names_witness :
    (emptyPrinter "p").formatSignature testTypeString sigHello =
      (emptyPrinter "p").formatSignature testTypeString sigHelloMethod :=
  formatSignature_ignores_names testTypeString (emptyPrinter "p") sigHello sigHelloMethod
    rfl rfl rfl

theorem sigHello_rendering :
    (emptyPrinter "p").formatSignature testTypeString sigHello = some "(string, int) error" ∧
    (emptyPrinter "p").formatSignature testTypeString sigHelloMethod =
      some "(string, int) error" := by
  decide

/-! ## De-vendoring is idempotent -/

theorem packagePath_no_occurrence (pkg : Package) :
    ∀ j, ¬ OccursAt vendor.data (packagePath pkg).data j := by
  have hv : vendor.data ≠ [] := by decide
  intro j ho
  rcases lastIndexFrom_spec pkg.path.data vendor.data (pkg.path.length - vendor.length) with
    ⟨h1, h2⟩ | ⟨i, hi, h1, h2, h3⟩
  · have hp : packagePath pkg = pkg.path := by
      unfold packagePath lastIndex
      simp [h1]
    rw [hp] at ho
    exact h2 j (occursAt_le _ _ _ hv ho) ho
  · have hlen : i ≤ pkg.path.data.length := by
      have : pkg.path.length = pkg.path.data.length := rfl
      omega
    obtain ⟨hs, hl⟩ := occursAt_split _ _ i h2 hlen
    have hlast : ∀ k, OccursAt vendor.data pkg.path.data k → k ≤ (pkg.path.data.take i).length := by
      intro k hk
      rw [hl]
      by_contra hcon
      exact h3 k (by omega) (occursAt_le _ _ _ hv hk) hk
    have hp := packagePath_of_last pkg (pkg.path.data.take i)
      (pkg.path.data.drop (i + vendor.data.length)) hs hlast
    rw [hp] at ho
    have ho2 : OccursAt vendor.data
        (pkg.path.data.take i ++ vendor.data ++ pkg.path.data.drop (i + vendor.data.length))
        ((pkg.path.data.take i ++ vendor.data).length + j) :=
      (occursAt_shift _ _ _ _).mpr ho
    rw [← hs] at ho2
    have := hlast _ ho2
    have hvl : 0 < vendor.data.length := List.length_pos.mpr hv
    simp only [List.length_append] at this
    omega

/-- C19: the result of `packagePath` contains no occurrence of `/vendor/`, and de-vendoring
an already de-vendored path returns it unchanged. -/
theorem packagePath_idempotent (pkg : Package) (scope : Nat) :
    (¬ ∃ a b : String, packagePath pkg = a ++ "/vendor/" ++ b) ∧
      packagePath { path := packagePath pkg, scope := scope } = packagePath pkg := by
  constructor
  · rintro ⟨a, b, hab⟩
    apply packagePath_no_occurrence pkg a.data.length
    rw [hab]
    simp only [String.data_append]
    exact occursAt_of_append vendor.data a.data b.data
  · exact packagePath_of_no_occurrence { path := packagePath pkg, scope := scope }
      (packagePath_no_occurrence pkg)

theorem packagePath_overlapping :
    packagePath { path := "a/vendor/vendor/b", scope := 0 } = "b" ∧
    packagePath { path := "a/vendor//vendor/b", scope := 0 } = "b" ∧
    packagePath { path := packagePath { path := "a/vendor/vendor/b", scope := 0 },
                  scope := 0 } = "b" := by
  decide

/-! ## Totality on well-formed types -/

theorem wellFormedSig_eq (r : Option Var) (ps rs : Option (List Var)) (v : Bool) :
    wellFormedSig (.mk r ps rs v) =
      (wellFormedVars v (ps.getD []) && wellFormedVars false (rs.getD [])) := by
  cases ps <;> cases rs <;> simp [wellFormedSig, wellFormedVars]

theorem wellFormedVars_cons (v : Bool) (w : Var) (rest : List Var) :
    wellFormedVars v (w :: rest) =
      ((!(v && rest.isEmpty) || isSlice w.typ) && wellFormed w.typ &&
        wellFormedVars v rest) := by
  obtain ⟨n, x, t⟩ := w
  simp [wellFormedVars, Var.typ]

theorem formatParams_snoc_not_slice (ts : GoType → String) (p : printer) (init : List Var)
    (last : Var) (h : isSlice last.typ = false) :
    ∀ first, p.formatParams ts true first (init ++ [last]) = none := by
  induction init with
  | nil =>
    intro first
    rw [List.nil_append, formatParams_cons]
    have : paramText ts p (true && ([] : List Var).isEmpty) last.typ = none := by
      cases ht : last.typ <;> simp_all [paramText, isSlice]
    rw [this]
    rfl
  | cons w rest ih =>
    intro first
    rw [List.cons_append, formatParams_cons, ih false]
    cases paramText ts p (true && (rest ++ [last]).isEmpty) w.typ <;> rfl

theorem total_all (ts : GoType → String) (p : printer) :
    (∀ t, wellFormed t = true → ∃ s, p.formatType ts t = some s) ∧
    (∀ sig, wellFormedSig sig = true → ∃ s, p.formatSignature ts sig = some s) ∧
    (∀ l, (∀ w ∈ l, wellFormed w.typ = true → ∃ s, p.formatType ts w.typ = some s) ∧
      ∀ v first, wellFormedVars v l = true → ∃ s, p.formatParams ts v first l = some s) := by
  apply goType_induct
  · intro n _; simp [printer.formatType]
  · intro f _; simp [printer.formatType]
  · intro o _; exact ⟨_, formatType_named_eq ts p o⟩
  · intro e ih h
    simp only [wellFormed] at h
    obtain ⟨s, hs⟩ := ih h
    simp [printer.formatType, hs]
  · intro e ih h
    simp only [wellFormed] at h
    obtain ⟨s, hs⟩ := ih h
    simp [printer.formatType, hs]
  · intro n e ih h
    simp only [wellFormed] at h
    obtain ⟨s, hs⟩ := ih h
    simp [printer.formatType, hs]
  · intro sig ih h
    simp only [wellFormed] at h
    obtain ⟨s, hs⟩ := ih h
    simp [printer.formatType, hs]
  · intro m _; simp [printer.formatType]
  · intro k e ih1 ih2 h
    simp only [wellFormed, Bool.and_eq_true] at h
    obtain ⟨s1, hs1⟩ := ih1 h.1
    obtain ⟨s2, hs2⟩ := ih2 h.2
    simp [printer.formatType, hs1, hs2]
  · intro d e ih h
    simp only [wellFormed] at h
    obtain ⟨s, hs⟩ := ih h
    cases d <;> simp [printer.formatType, hs]
  · intro l h; simp [wellFormed] at h
  · intro r ps rs v hp hr h
    rw [wellFormedSig_eq, Bool.and_eq_true] at h
    have h1 : ∃ a, paramsText ts p v ps = some a := by
      rw [paramsText_getD]
      cases ps with
      | none => exact ⟨"", formatParams_nil ts p v true⟩
      | some l => exact (hp l rfl).2 v true h.1
    have h2 : ∃ b, resultsText ts p rs = some b := by
      rcases rs with _ | (_ | ⟨w, (_ | ⟨w2, vars⟩)⟩)
      · exact ⟨"", rfl⟩
      · exact ⟨"", rfl⟩
      · have hw := h.2
        simp only [Option.getD_some, wellFormedVars_cons, Bool.and_eq_true] at hw
        obtain ⟨s, hs⟩ := (hr _ rfl).1 w (by simp) hw.1.2
        exact ⟨" " ++ s, by simp [resultsText, hs]⟩
      · obtain ⟨s, hs⟩ := (hr _ rfl).2 false true h.2
        exact ⟨" (" ++ s ++ ")", by simp [resultsText, formatResults_eq_params, hs]⟩
    obtain ⟨a, ha⟩ := h1
    obtain ⟨b, hb⟩ := h2
    rw [formatSignature_eq, ha, hb]
    exact ⟨_, rfl⟩
  · exact ⟨fun w hw => by simp at hw, fun v first _ => ⟨"", formatParams_nil ts p v first⟩⟩
  · intro n x t rest iht ihs ihr
    constructor
    · intro w hw
      rcases List.mem_cons.mp hw with rfl | hw
      · exact iht
      · exact ihr.1 w hw
    · intro v first h
      rw [wellFormedVars_cons] at h
      simp only [Bool.and_eq_true, Bool.or_eq_true, Bool.not_eq_true', Var.typ] at h
      obtain ⟨⟨hflag, hwt⟩, hwr⟩ := h
      obtain ⟨b, hb⟩ := ihr.2 v false hwr
      have ha : ∃ a, paramText ts p (v && rest.isEmpty) t = some a := by
        cases hf : (v && rest.isEmpty) with
        | false => exact iht hwt
        | true =>
          rw [hf] at hflag
          simp only [Bool.true_eq_false, false_or] at hflag
          cases t with
          | Slice e =>
            simp only [wellFormed] at hwt
            obtain ⟨s, hs⟩ := ihs e rfl hwt
            exact ⟨"..." ++ s, by simp [paramText, hs]⟩
          | _ => simp [isSlice] at hflag
      obtain ⟨a, ha⟩ := ha
      rw [formatParams_cons]
      simp only [Var.typ, ha, hb]
      exact ⟨_, rfl⟩

/-- C20: `formatType` and `formatSignature` are total on well-formed input: they are
defined by structural recursion, and on every type (signature) built from the recognised
shapes in which the last parameter of every variadic signature is a slice they return a
string. Conversely `formatSignature` aborts on every variadic signature whose last parameter
is not a slice. -/
theorem formatType_total (ts : GoType → String) (p : printer) :
    (∀ t, wellFormed t = true → ∃ s, p.formatType ts t = some s) ∧
    (∀ sig, wellFormedSig sig = true → ∃ s, p.formatSignature ts sig = some s) ∧
    (∀ (r : Option Var) (init : List Var) (last : Var) (rs : Option (List Var)),
      isSlice last.typ = false →
      p.formatSignature ts (.mk r (some (init ++ [last])) rs true) = none) := by
  refine ⟨(total_all ts p).1, (total_all ts p).2.1, ?_⟩
  intro r init last rs h
  rw [formatSignature_eq, paramsText_getD, Option.getD_some,
    formatParams_snoc_not_slice ts p init last h true]
  rfl

theorem variadic_examples :
    wellFormed variadicOk = true ∧
    (emptyPrinter "p").formatType testTypeString variadicOk = some "func(int, ...string)" ∧
    wellFormedSig variadicBad = false ∧
    (emptyPrinter "p").formatSignature testTypeString variadicBad = none ∧
    (emptyPrinter "p").formatSignature testTypeString (.mk none (some []) none true) =
      some "()" := by
  decide

end Gopkgapi
